import Mathlib

/-!
Verification of the diff/merge engine in
`CsasziCompare/csaszicompare/diff_engine.py`.

The Python code delegates sequence matching to
`difflib.SequenceMatcher(None, a, b, autojunk=False)`.  With no junk
predicate and `autojunk=False` the matcher's `find_longest_match(alo, ahi,
blo, bhi)` returns, among all maximal matching blocks of `a[alo:ahi]` and
`b[blo:bhi]`, the one starting earliest in `a` and, among those, earliest in
`b` (the junk-extension phases are no-ops).  We embed that contract directly:
a search over all candidate start pairs in lexicographic order, keeping the
first strictly-longer match.  `get_matching_blocks` (recursive split around
each longest match, merge of adjacent blocks, terminal sentinel) and
`get_opcodes` are embedded structurally from the difflib source.
-/

-- ═══════════════════════════════════════════════════════════════════════
-- Data types (diff_engine.py, "Data types" section)
-- ═══════════════════════════════════════════════════════════════════════

inductive LineTag where
  | EQUAL
  | INSERT
  | DELETE
  | REPLACE
  | CONFLICT
  | HUNK
  deriving DecidableEq, Repr

/-- A run of characters within a line with a tag for highlighting.
The source field `end` is a Lean keyword; it is named `stop` here. -/
structure CharSpan where
  start : Nat
  stop : Nat
  tag : String
  deriving DecidableEq, Repr

/-- One line in a two-way diff result. -/
structure DiffLine where
  tag : LineTag
  left_lineno : Option Nat
  right_lineno : Option Nat
  left_text : String
  right_text : String
  left_char_spans : List CharSpan
  right_char_spans : List CharSpan
  deriving DecidableEq, Repr

inductive MergeTag where
  | RESOLVED
  | CONFLICT
  deriving DecidableEq, Repr

/-- A chunk in a three-way merge result. -/
structure MergeChunk where
  tag : MergeTag
  base_lines : List String
  left_lines : List String
  right_lines : List String
  result_lines : List String
  deriving DecidableEq, Repr

-- ═══════════════════════════════════════════════════════════════════════
-- difflib.SequenceMatcher (no junk): longest match, blocks, opcodes
-- ═══════════════════════════════════════════════════════════════════════

variable {α : Type*} [DecidableEq α]

/-- Length of the common prefix of two lists. -/
def commonPrefixLen : List α → List α → Nat
  | x :: xs, y :: ys => if x = y then commonPrefixLen xs ys + 1 else 0
  | _, _ => 0

/-- Length of the longest common run of `a` and `b` starting at positions
`i`, `j`, confined below `ahi` / `bhi`. -/
def matchLen (a b : List α) (ahi bhi i j : Nat) : Nat :=
  commonPrefixLen ((a.take ahi).drop i) ((b.take bhi).drop j)

/-- All candidate start pairs `(i, j)` with `alo ≤ i < ahi`, `blo ≤ j < bhi`,
in lexicographic order. -/
def flmCandidates (alo ahi blo bhi : Nat) : List (Nat × Nat) :=
  (List.range' alo (ahi - alo)).flatMap fun i =>
    (List.range' blo (bhi - blo)).map fun j => (i, j)

/-- One step of the longest-match search: replace the current best only for a
strictly longer match, so ties keep the earliest candidate. -/
def flmStep (a b : List α) (ahi bhi : Nat) (best : Nat × Nat × Nat)
    (ij : Nat × Nat) : Nat × Nat × Nat :=
  let k := matchLen a b ahi bhi ij.1 ij.2
  if best.2.2 < k then (ij.1, ij.2, k) else best

/-- `find_longest_match(alo, ahi, blo, bhi)` of the no-junk SequenceMatcher:
the longest matching block, ties broken by earliest start in `a`, then in
`b`; `(alo, blo, 0)` if there is no nonempty match. -/
def findLongestMatch (a b : List α) (alo ahi blo bhi : Nat) : Nat × Nat × Nat :=
  (flmCandidates alo ahi blo bhi).foldl (flmStep a b ahi bhi) (alo, blo, 0)

theorem commonPrefixLen_le_left (xs ys : List α) :
    commonPrefixLen xs ys ≤ xs.length := by
  induction xs generalizing ys with
  | nil => simp [commonPrefixLen]
  | cons x xs ih =>
    cases ys with
    | nil => simp [commonPrefixLen]
    | cons y ys =>
      by_cases h : x = y <;> simp [commonPrefixLen, h]
      exact ih ys

theorem commonPrefixLen_le_right (xs ys : List α) :
    commonPrefixLen xs ys ≤ ys.length := by
  induction xs generalizing ys with
  | nil => simp [commonPrefixLen]
  | cons x xs ih =>
    cases ys with
    | nil => simp [commonPrefixLen]
    | cons y ys =>
      by_cases h : x = y <;> simp [commonPrefixLen, h]
      exact ih ys

theorem matchLen_left_le (a b : List α) (ahi bhi i j : Nat) (hi : i < ahi) :
    i + matchLen a b ahi bhi i j ≤ ahi := by
  have h1 := commonPrefixLen_le_left ((a.take ahi).drop i) ((b.take bhi).drop j)
  have h2 : ((a.take ahi).drop i).length ≤ ahi - i := by
    simp only [List.length_drop, List.length_take]
    omega
  unfold matchLen
  omega

theorem matchLen_right_le (a b : List α) (ahi bhi i j : Nat) (hj : j < bhi) :
    j + matchLen a b ahi bhi i j ≤ bhi := by
  have h1 := commonPrefixLen_le_right ((a.take ahi).drop i) ((b.take bhi).drop j)
  have h2 : ((b.take bhi).drop j).length ≤ bhi - j := by
    simp only [List.length_drop, List.length_take]
    omega
  unfold matchLen
  omega

theorem foldl_flmStep_invariant (a b : List α) (ahi bhi : Nat)
    (P : Nat × Nat × Nat → Prop) (l : List (Nat × Nat)) (init : Nat × Nat × Nat)
    (h0 : P init)
    (hstep : ∀ best ij, ij ∈ l → P best → P (flmStep a b ahi bhi best ij)) :
    P (l.foldl (flmStep a b ahi bhi) init) := by
  induction l generalizing init with
  | nil => exact h0
  | cons x xs ih =>
    exact ih _ (hstep _ _ (by simp) h0) (fun best ij hij => hstep best ij (by simp [hij]))

theorem flmCandidates_mem {alo ahi blo bhi : Nat} {ij : Nat × Nat}
    (h : ij ∈ flmCandidates alo ahi blo bhi) :
    alo ≤ ij.1 ∧ ij.1 < ahi ∧ blo ≤ ij.2 ∧ ij.2 < bhi := by
  unfold flmCandidates at h
  simp only [List.mem_flatMap, List.mem_map, List.mem_range'_1] at h
  obtain ⟨i, ⟨hi1, hi2⟩, j, ⟨hj1, hj2⟩, hpair⟩ := h
  subst hpair
  exact ⟨hi1, by omega, hj1, by omega⟩

/-- The result of `findLongestMatch` with a positive size lies inside the
given ranges. -/
theorem flm_pos_bounds (a b : List α) (alo ahi blo bhi bi bj bk : Nat)
    (heq : findLongestMatch a b alo ahi blo bhi = (bi, bj, bk)) (hk : 0 < bk) :
    alo ≤ bi ∧ bi + bk ≤ ahi ∧ blo ≤ bj ∧ bj + bk ≤ bhi := by
  have inv := foldl_flmStep_invariant a b ahi bhi
    (fun r => 0 < r.2.2 → alo ≤ r.1 ∧ r.1 + r.2.2 ≤ ahi ∧ blo ≤ r.2.1 ∧ r.2.1 + r.2.2 ≤ bhi)
    (flmCandidates alo ahi blo bhi) (alo, blo, 0)
    (by intro h; simp at h)
    (by
      intro best ij hij hbest
      simp only [flmStep]
      split
      · intro _
        have hmem := flmCandidates_mem hij
        exact ⟨hmem.1, matchLen_left_le a b ahi bhi ij.1 ij.2 hmem.2.1,
          hmem.2.2.1, matchLen_right_le a b ahi bhi ij.1 ij.2 hmem.2.2.2⟩
      · exact hbest)
  have hdef : findLongestMatch a b alo ahi blo bhi
      = (flmCandidates alo ahi blo bhi).foldl (flmStep a b ahi bhi) (alo, blo, 0) := rfl
  rw [← hdef, heq] at inv
  exact inv hk

/-- Recursive structure of `get_matching_blocks`: find the longest match,
then recurse on the prefix and suffix sub-ranges.  The recursion depth is
bounded by the width `ahi - alo` of the `a`-range (a nonempty match makes
both sub-ranges strictly narrower, by `flm_pos_bounds`), so the recursion
is driven structurally by that width passed as `fuel`; `fuel = 0` forces
`ahi ≤ alo`, where the match is empty and the result `[]` on both readings. -/
def matchingBlocksFuel (a b : List α) :
    Nat → Nat → Nat → Nat → Nat → List (Nat × Nat × Nat)
  | 0, _, _, _, _ => []
  | fuel + 1, alo, ahi, blo, bhi =>
    match findLongestMatch a b alo ahi blo bhi with
    | (bi, bj, bk) =>
      if 0 < bk then
        matchingBlocksFuel a b fuel alo bi blo bj ++
          (bi, bj, bk) :: matchingBlocksFuel a b fuel (bi + bk) ahi (bj + bk) bhi
      else []

def matchingBlocksRec (a b : List α) (alo ahi blo bhi : Nat) :
    List (Nat × Nat × Nat) :=
  matchingBlocksFuel a b (ahi - alo) alo ahi blo bhi

/-- The merge loop of `get_matching_blocks`: collapse blocks that are
adjacent in both sequences, starting from the sentinel `(0, 0, 0)`. -/
def nonAdjacentGo : List (Nat × Nat × Nat) → Nat × Nat × Nat → List (Nat × Nat × Nat)
  | [], cur => if 0 < cur.2.2 then [cur] else []
  | blk :: rest, cur =>
    if cur.1 + cur.2.2 = blk.1 ∧ cur.2.1 + cur.2.2 = blk.2.1 then
      nonAdjacentGo rest (cur.1, cur.2.1, cur.2.2 + blk.2.2)
    else
      (if 0 < cur.2.2 then [cur] else []) ++ nonAdjacentGo rest blk

/-- `get_matching_blocks`: recursively collected blocks (already in sorted
order), adjacent ones merged, with the terminal `(len(a), len(b), 0)`. -/
def getMatchingBlocks (a b : List α) : List (Nat × Nat × Nat) :=
  nonAdjacentGo (matchingBlocksRec a b 0 a.length 0 b.length) (0, 0, 0)
    ++ [(a.length, b.length, 0)]

/-- One tagged opcode of `get_opcodes` (the source uses string tags). -/
structure Opcode where
  tag : String
  i1 : Nat
  i2 : Nat
  j1 : Nat
  j2 : Nat
  deriving DecidableEq, Repr

/-- The opcode-building loop of `get_opcodes`: before each block emit the
gap opcode (replace/delete/insert) if any side has unmatched content, then
an equal opcode for the block itself if it is nonempty. -/
def getOpcodesGo : List (Nat × Nat × Nat) → Nat → Nat → List Opcode
  | [], _, _ => []
  | (ai, bj, size) :: rest, i, j =>
    (if i < ai ∧ j < bj then [⟨"replace", i, ai, j, bj⟩]
     else if i < ai then [⟨"delete", i, ai, j, bj⟩]
     else if j < bj then [⟨"insert", i, ai, j, bj⟩]
     else [])
    ++ (if 0 < size then [⟨"equal", ai, ai + size, bj, bj + size⟩] else [])
    ++ getOpcodesGo rest (ai + size) (bj + size)

/-- `get_opcodes` of the no-junk SequenceMatcher. -/
def getOpcodes (a b : List α) : List Opcode :=
  getOpcodesGo (getMatchingBlocks a b) 0 0

/-- `lines[i1:i2]`. -/
def sliceList (l : List α) (i1 i2 : Nat) : List α :=
  (l.take i2).drop i1

-- ═══════════════════════════════════════════════════════════════════════
-- Character-level diff within a line pair (`_char_diff`)
-- ═══════════════════════════════════════════════════════════════════════

def _char_diff (old_line new_line : String) : List CharSpan × List CharSpan :=
  let ops := getOpcodes old_line.toList new_line.toList
  (ops.flatMap fun op =>
      if op.tag = "equal" then [⟨op.i1, op.i2, "equal"⟩]
      else if op.tag = "replace" then [⟨op.i1, op.i2, "delete"⟩]
      else if op.tag = "delete" then [⟨op.i1, op.i2, "delete"⟩]
      else [],
   ops.flatMap fun op =>
      if op.tag = "equal" then [⟨op.j1, op.j2, "equal"⟩]
      else if op.tag = "replace" then [⟨op.j1, op.j2, "insert"⟩]
      else if op.tag = "insert" then [⟨op.j1, op.j2, "insert"⟩]
      else [])

-- ═══════════════════════════════════════════════════════════════════════
-- Two-way diff (`diff_lines`)
-- ═══════════════════════════════════════════════════════════════════════

/-- The `DiffLine`s emitted for one opcode in `diff_lines` (the loop body
over `sm.get_opcodes()`).  Out-of-range reads use `""`; the bounds theorems
below show every read is in range. -/
def emitOpcode (a b : List String) (op : Opcode) : List DiffLine :=
  if op.tag = "equal" then
    (List.range (op.i2 - op.i1)).map fun k =>
      ⟨LineTag.EQUAL, some (op.i1 + k + 1), some (op.j1 + k + 1),
        a.getD (op.i1 + k) "", b.getD (op.j1 + k) "", [], []⟩
  else if op.tag = "replace" then
    ((List.range (min (op.i2 - op.i1) (op.j2 - op.j1))).map fun k =>
      let lt := a.getD (op.i1 + k) ""
      let rt := b.getD (op.j1 + k) ""
      ⟨LineTag.REPLACE, some (op.i1 + k + 1), some (op.j1 + k + 1),
        lt, rt, (_char_diff lt rt).1, (_char_diff lt rt).2⟩)
    ++ ((List.range' (min (op.i2 - op.i1) (op.j2 - op.j1))
          ((op.i2 - op.i1) - min (op.i2 - op.i1) (op.j2 - op.j1))).map fun k =>
      ⟨LineTag.DELETE, some (op.i1 + k + 1), none, a.getD (op.i1 + k) "", "", [], []⟩)
    ++ ((List.range' (min (op.i2 - op.i1) (op.j2 - op.j1))
          ((op.j2 - op.j1) - min (op.i2 - op.i1) (op.j2 - op.j1))).map fun k =>
      ⟨LineTag.INSERT, none, some (op.j1 + k + 1), "", b.getD (op.j1 + k) "", [], []⟩)
  else if op.tag = "delete" then
    (List.range (op.i2 - op.i1)).map fun k =>
      ⟨LineTag.DELETE, some (op.i1 + k + 1), none, a.getD (op.i1 + k) "", "", [], []⟩
  else if op.tag = "insert" then
    (List.range (op.j2 - op.j1)).map fun k =>
      ⟨LineTag.INSERT, none, some (op.j1 + k + 1), "", b.getD (op.j1 + k) "", [], []⟩
  else []

/-- The raw (unfolded) `DiffLine` stream of `diff_lines`. -/
def diffLinesRaw (left_lines right_lines : List String) : List DiffLine :=
  (getOpcodes left_lines right_lines).flatMap (emitOpcode left_lines right_lines)

/-- The hunk separator record. -/
def hunkLine : DiffLine := ⟨LineTag.HUNK, none, none, "", "", [], []⟩

/-- Indices of the non-`EQUAL` records (`interesting_indices`). -/
def interestingIndices (raw : List DiffLine) : List Nat :=
  (List.range raw.length).filter fun i =>
    decide ((raw.getD i hunkLine).tag ≠ LineTag.EQUAL)

/-- The loop of the context-folding stage over `interesting_indices`, plus
the trailing-context epilogue.  State: `next = last_interesting + 1` (the
first index not yet covered; the source keeps `last_interesting`, starting
at `-1`, and always sets it to `idx + context` since indices ascend), and
the accumulated result.  The source's `if i > last_interesting` filter
inside the emission loop is always true because the loop starts at
`start ≥ last_interesting + 1`. -/
def foldLoop (raw : List DiffLine) (k : Nat) :
    List Nat → Nat → List DiffLine → List DiffLine
  | [], next, acc =>
    -- trailing context: remaining_start = last_interesting + 1 = next
    if next < raw.length then
      (acc ++ (raw.drop next).take k)
        ++ (if next + k < raw.length then [hunkLine] else [])
    else acc
  | idx :: rest, next, acc =>
    let start := max next (idx - k)
    let acc1 := if acc ≠ [] ∧ next < start then acc ++ [hunkLine] else acc
    let stop := min (idx + k + 1) raw.length
    foldLoop raw k rest (idx + k + 1) (acc1 ++ (raw.drop start).take (stop - start))

/-- The context-folding stage of `diff_lines` (lines 176–219 of the
source).  `raw[-context:]` in Python is the whole list when `context = 0`,
hence the explicit `k = 0` case in the all-equal branch. -/
def fold (raw : List DiffLine) (k : Nat) : List DiffLine :=
  if interestingIndices raw = [] then
    if raw.length > k * 2 then
      raw.take k ++ hunkLine :: (if k = 0 then raw else raw.drop (raw.length - k))
    else raw
  else foldLoop raw k (interestingIndices raw) 0 []

/-- `diff_lines(left_lines, right_lines, context)`. -/
def diff_lines (left_lines right_lines : List String) (context : Option Nat) :
    List DiffLine :=
  match context with
  | none => diffLinesRaw left_lines right_lines
  | some k => fold (diffLinesRaw left_lines right_lines) k

-- ═══════════════════════════════════════════════════════════════════════
-- Three-way merge (`merge3`)
-- ═══════════════════════════════════════════════════════════════════════

/-- Whether a base-line index is marked changed for one side: the source
fills a `left_changed` / `right_changed` boolean array by setting index `i`
to `True` for every `i` in the range of every non-equal opcode, so index
`i` is changed exactly when some non-equal opcode covers it. -/
def changed (ops : List Opcode) (i : Nat) : Bool :=
  ops.any fun op => (op.tag != "equal") && decide (op.i1 ≤ i) && decide (i < op.i2)

/-- First index `≥ i` (bounded by `n`) where `p` fails: the `while i < n and
p(i): i += 1` loops of `merge3`.  The loop advances by one while `i < n`, so
it runs structurally on the remaining width `n - i` passed as `fuel`
(threaded exactly: at every level `fuel = n - i`). -/
def scanWhileFuel (p : Nat → Bool) (n : Nat) : Nat → Nat → Nat
  | 0, i => i
  | fuel + 1, i => if i < n then (if p i then scanWhileFuel p n fuel (i + 1) else i) else i

def scanWhile (n : Nat) (p : Nat → Bool) (i : Nat) : Nat :=
  scanWhileFuel p n (n - i) i

theorem scanWhileFuel_ge (p : Nat → Bool) (n fuel i : Nat) :
    i ≤ scanWhileFuel p n fuel i := by
  induction fuel generalizing i with
  | zero => exact Nat.le_refl i
  | succ fuel ih =>
    simp only [scanWhileFuel]
    split
    · split
      · exact Nat.le_trans (by omega) (ih (i + 1))
      · exact Nat.le_refl i
    · exact Nat.le_refl i

theorem scanWhile_ge (n : Nat) (p : Nat → Bool) (i : Nat) : i ≤ scanWhile n p i :=
  scanWhileFuel_ge p n (n - i) i

theorem scanWhile_gt (n : Nat) (p : Nat → Bool) (i : Nat) (hi : i < n)
    (hp : p i = true) : i + 1 ≤ scanWhile n p i := by
  unfold scanWhile
  have hfuel : n - i = (n - i - 1) + 1 := by omega
  rw [hfuel]
  simp only [scanWhileFuel, if_pos hi, if_pos hp]
  exact scanWhileFuel_ge p n (n - i - 1) (i + 1)

theorem scanWhileFuel_le (p : Nat → Bool) (n fuel i : Nat) (hi : i ≤ n) :
    scanWhileFuel p n fuel i ≤ n := by
  induction fuel generalizing i with
  | zero => exact hi
  | succ fuel ih =>
    simp only [scanWhileFuel]
    split
    · split
      · exact ih (i + 1) (by omega)
      · exact hi
    · exact hi

theorem scanWhile_le (n : Nat) (p : Nat → Bool) (i : Nat) (hi : i ≤ n) :
    scanWhile n p i ≤ n :=
  scanWhileFuel_le p n (n - i) i hi

/-- The replacement-map entries `left_map` / `right_map`: the non-equal
opcodes keyed by base range (key order = opcode order; the embedding keeps
the association list directly since keys of distinct opcodes are distinct),
with value `target[j1:j2]`. -/
def opMap (ops : List Opcode) (target : List String) :
    List ((Nat × Nat) × List String) :=
  ops.filterMap fun op =>
    if op.tag ≠ "equal" then some ((op.i1, op.i2), sliceList target op.j1 op.j2)
    else none

/-- The opcode walk of `_find_replacement`: skip opcodes that do not overlap
`[start, stop)`; splice the overlapping part of the target for equal
opcodes; splice the full replacement once per non-equal opcode, tracked by
the `covered` key set (the source also adds plain integers to `covered` in
the equal branch; those can never equal a `(i1, i2)` key, so only tuple keys
are kept here). -/
def findReplGo (target : List String) (start stop : Nat) :
    List Opcode → List (Nat × Nat) → List String → List String
  | [], _, res => res
  | op :: rest, covered, res =>
    if op.i2 ≤ start ∨ stop ≤ op.i1 then findReplGo target start stop rest covered res
    else if op.tag = "equal" then
      findReplGo target start stop rest covered
        (res ++ (List.range (min op.i2 stop - max op.i1 start)).map fun k =>
          target.getD (op.j1 + (max op.i1 start - op.i1) + k) "")
    else if (op.i1, op.i2) ∈ covered then
      findReplGo target start stop rest covered res
    else
      findReplGo target start stop rest ((op.i1, op.i2) :: covered)
        (res ++ sliceList target op.j1 op.j2)

/-- `_find_replacement(change_map, start, end, changed_flags, base_lines,
target_lines, sm)`: what replaces `base[start:stop)` on one side.  The
source's `change_map` parameter is unused in its body and is omitted; the
opcode list stands for `sm.get_opcodes()`. -/
def _find_replacement (ops : List Opcode) (start stop : Nat)
    (changed_flags : Nat → Bool) (base_lines target_lines : List String) :
    List String :=
  if (List.range' start (stop - start)).any changed_flags then
    findReplGo target_lines start stop ops [] []
  else
    sliceList base_lines start stop

/-- The main chunk-building walk of `merge3` (`while i < n_base`), grouping
base lines into unchanged runs and changed regions.  Each iteration moves
`i` to `j ≥ i + 1` (by `scanWhile_gt`: the branch condition makes the
scanned predicate true at `i`), so the loop runs structurally on the
remaining width `n_base - i` passed as `fuel`; `fuel` stays at least
`n_base - i` at every level, and `fuel = 0` is reached only with
`i ≥ n_base`, where the loop ends on both readings. -/
def merge3WalkFuel (base_lines left_lines right_lines : List String)
    (lops rops : List Opcode) : Nat → Nat → List MergeChunk
  | 0, _ => []
  | fuel + 1, i =>
    if i < base_lines.length then
      if changed lops i = false ∧ changed rops i = false then
        let j := scanWhile base_lines.length
          (fun x => !(changed lops x) && !(changed rops x)) i
        ⟨MergeTag.RESOLVED, sliceList base_lines i j, sliceList base_lines i j,
          sliceList base_lines i j, sliceList base_lines i j⟩
          :: merge3WalkFuel base_lines left_lines right_lines lops rops fuel j
      else
        let j := scanWhile base_lines.length
          (fun x => changed lops x || changed rops x) i
        let b := sliceList base_lines i j
        let lr := _find_replacement lops i j (changed lops) base_lines left_lines
        let rr := _find_replacement rops i j (changed rops) base_lines right_lines
        (if lr = rr then ⟨MergeTag.RESOLVED, b, lr, rr, lr⟩
         else if lr = b then ⟨MergeTag.RESOLVED, b, lr, rr, rr⟩
         else if rr = b then ⟨MergeTag.RESOLVED, b, lr, rr, lr⟩
         else ⟨MergeTag.CONFLICT, b, lr, rr, []⟩)
          :: merge3WalkFuel base_lines left_lines right_lines lops rops fuel j
    else []

def merge3Walk (base_lines left_lines right_lines : List String)
    (lops rops : List Opcode) (i : Nat) : List MergeChunk :=
  merge3WalkFuel base_lines left_lines right_lines lops rops
    (base_lines.length - i) i

/-- `merge3(base_lines, left_lines, right_lines)`: the linear walk over the
base, followed by the trailing pure-insertion chunks taken from `left_map`
then `right_map` (entries with `i1 ≥ n_base` and a nonempty replacement). -/
def merge3 (base_lines left_lines right_lines : List String) : List MergeChunk :=
  let lops := getOpcodes base_lines left_lines
  let rops := getOpcodes base_lines right_lines
  merge3Walk base_lines left_lines right_lines lops rops 0
  ++ (opMap lops left_lines).filterMap (fun e =>
      if base_lines.length ≤ e.1.1 ∧ e.2 ≠ [] then
        some ⟨MergeTag.RESOLVED, [], e.2, [], e.2⟩
      else none)
  ++ (opMap rops right_lines).filterMap (fun e =>
      if base_lines.length ≤ e.1.1 ∧ e.2 ≠ [] then
        some ⟨MergeTag.RESOLVED, [], [], e.2, e.2⟩
      else none)

-- ═══════════════════════════════════════════════════════════════════════
-- Concrete scenario inputs used by the claims
-- ═══════════════════════════════════════════════════════════════════════

set_option maxRecDepth 16000

/-- A plain equal record (empty texts), as produced for matching blank lines. -/
def eqRecord (i : Nat) : DiffLine :=
  ⟨LineTag.EQUAL, some (i + 1), some (i + 1), "", "", [], []⟩

/-- A 100-record stream: all `EQUAL` except one `DELETE` at index 50. -/
def rawC5 : List DiffLine :=
  (List.range 100).map fun i =>
    if i = 50 then ⟨LineTag.DELETE, some 51, none, "old", "", [], []⟩
    else eqRecord i

-- ═══════════════════════════════════════════════════════════════════════
-- Claims
-- ═══════════════════════════════════════════════════════════════════════

/-- C2 (counterexample): the claim states that
`merge3(["a","b","c"], ["a","B","c"], ["a","b","C"])` returns chunks that are
all `Resolved` with zero `Conflict` chunks.  In fact the two one-sided edits
touch adjacent base lines, so the walk groups base lines 2 and 3 into a
single changed region in which both sides changed, and the call returns a
`CONFLICT` chunk: not every chunk is `RESOLVED`. -/
theorem C2_counterexample :
    ¬ (∀ c ∈ merge3 ["a", "b", "c"] ["a", "B", "c"] ["a", "b", "C"],
        c.tag = MergeTag.RESOLVED) := by decide

/-- C2 (amended): `merge3(["a","b","c"], ["a","B","c"], ["a","b","C"])`
returns a `Resolved` chunk for base line 1 followed by a single `Conflict`
chunk covering base lines 2–3 (left replacement `["B","c"]`, right
replacement `["b","C"]`, empty result): the adjacent one-sided edits are
grouped into one region and reported as a conflict, not auto-resolved. -/
theorem C2_amended :
    merge3 ["a", "b", "c"] ["a", "B", "c"] ["a", "b", "C"] =
      [⟨MergeTag.RESOLVED, ["a"], ["a"], ["a"], ["a"]⟩,
       ⟨MergeTag.CONFLICT, ["b", "c"], ["B", "c"], ["b", "C"], []⟩] := by decide

/-- C5 (counterexample): the claim states that folding `rawC5` with context
3 yields exactly one `Hunk` immediately before and one immediately after the
7-line window of indices 47–53.  In fact no `Hunk` precedes the window (the
fold inserts a separator only when the result is already nonempty, so elided
leading lines get no marker), and the output has exactly one `Hunk` in
total, so there cannot be one before and one after. -/
theorem C5_counterexample :
    ¬ ((hunkLine :: sliceList rawC5 47 54) <:+: fold rawC5 3) ∧
    (fold rawC5 3).countP (fun d => d.tag == LineTag.HUNK) = 1 := by decide

/-- C5 (amended): folding `rawC5` with context 3 emits no leading `Hunk`:
the output is the records at indices 47–56 (the 3+1+3 window followed by
three further trailing-context lines) and then exactly one `Hunk` marker. -/
theorem C5_amended : fold rawC5 3 = sliceList rawC5 47 57 ++ [hunkLine] := by decide

/-- C7 (counterexample): the claim states that folding an all-`EQUAL` stream
with `len(raw) > 2*k` emits the first `k` lines, one `Hunk`, then the last
`k` lines.  At `k = 0` with one equal record that predicts `[hunkLine]`,
but `raw[-0:]` in Python is the whole list, so the fold returns the `Hunk`
followed by the entire stream. -/
theorem C7_counterexample : ¬ (fold [eqRecord 0] 0 = [hunkLine]) := by decide

/-- C7 (amended): for context `k ≥ 1` the claim holds: folding a raw stream
with no non-`EQUAL` record returns the first `k` lines, one `Hunk` marker,
and the last `k` lines when `len(raw) > 2*k`, and the stream unchanged
otherwise.  (At `k = 0` the all-equal branch appends the whole stream after
the `Hunk` instead of its last 0 lines.) -/
theorem C7_amended (raw : List DiffLine) (k : Nat) (hk : 1 ≤ k)
    (h : ∀ d ∈ raw, d.tag = LineTag.EQUAL) :
    fold raw k =
      if 2 * k < raw.length then
        raw.take k ++ hunkLine :: raw.drop (raw.length - k)
      else raw := by
  have hnil : interestingIndices raw = [] := by
    unfold interestingIndices
    rw [List.filter_eq_nil_iff]
    intro i hi
    rw [List.mem_range] at hi
    rw [List.getD_eq_getElem?_getD, List.getElem?_eq_getElem hi]
    simp [h raw[i] (List.getElem_mem hi)]
  unfold fold
  rw [if_pos hnil]
  have hk0 : ¬ (k = 0) := by omega
  rcases Nat.lt_or_ge (2 * k) raw.length with hlen | hlen
  · rw [if_pos (by omega), if_pos hlen, if_neg hk0]
  · rw [if_neg (by omega), if_neg (by omega)]

/-- C7 (witness): the amended statement applied to three equal records with
context 1. -/
theorem C7_amended_witness :
    fold [eqRecord 0, eqRecord 1, eqRecord 2] 1 = [eqRecord 0, hunkLine, eqRecord 2] := by
  have h := C7_amended [eqRecord 0, eqRecord 1, eqRecord 2] 1 (by decide) (by decide)
  rw [h]
  decide

/-- C4 (counterexample): the claim states `fold (fold x k) k = fold x k`
for every `k ≥ 0`.  At `k = 0` with one equal record, the first fold
returns `[Hunk, eqRecord 0]` (the Python `raw[-0:]` quirk), whose second
fold is `[Hunk, Hunk]`. -/
theorem C4_counterexample :
    ¬ (fold (fold [eqRecord 0] 0) 0 = fold [eqRecord 0] 0) := by decide

-- ═══════════════════════════════════════════════════════════════════════
-- The matcher on two identical sequences
-- ═══════════════════════════════════════════════════════════════════════

theorem commonPrefixLen_self (l : List α) : commonPrefixLen l l = l.length := by
  induction l with
  | nil => rfl
  | cons x xs ih => simp [commonPrefixLen, ih]

theorem flm_out_of_range (a b : List α) (alo ahi blo bhi : Nat) (h : ahi ≤ alo) :
    findLongestMatch a b alo ahi blo bhi = (alo, blo, 0) := by
  unfold findLongestMatch flmCandidates
  have h0 : ahi - alo = 0 := by omega
  rw [h0]
  rfl

theorem matchLen_le_ahi (a b : List α) (ahi bhi i j : Nat) :
    matchLen a b ahi bhi i j ≤ ahi := by
  have h1 := commonPrefixLen_le_left ((a.take ahi).drop i) ((b.take bhi).drop j)
  have h2 : ((a.take ahi).drop i).length ≤ ahi := by
    simp only [List.length_drop, List.length_take]
    omega
  unfold matchLen
  omega

theorem foldl_flmStep_keep (a b : List α) (ahi bhi : Nat) (l : List (Nat × Nat))
    (best : Nat × Nat × Nat) (h : ahi ≤ best.2.2) :
    l.foldl (flmStep a b ahi bhi) best = best := by
  induction l with
  | nil => rfl
  | cons x xs ih =>
    rw [List.foldl_cons]
    have hs : flmStep a b ahi bhi best x = best := by
      simp only [flmStep]
      have := matchLen_le_ahi a b ahi bhi x.1 x.2
      rw [if_neg (by omega)]
    rw [hs]
    exact ih

/-- On two identical sequences the longest match is the whole sequence at
the origin. -/
theorem flm_self (a : List α) (h : 0 < a.length) :
    findLongestMatch a a 0 a.length 0 a.length = (0, 0, a.length) := by
  obtain ⟨m, hm⟩ : ∃ m, a.length = m + 1 := ⟨a.length - 1, by omega⟩
  have hcand : flmCandidates 0 a.length 0 a.length
      = (0, 0) :: (((List.range' 1 m).map fun j => ((0 : Nat), j))
          ++ (List.range' 1 m).flatMap fun i =>
              (List.range' 0 a.length).map fun j => (i, j)) := by
    unfold flmCandidates
    rw [Nat.sub_zero]
    conv_lhs => rw [hm, List.range'_succ, List.flatMap_cons]
    rw [hm, List.range'_succ, List.map_cons]
    rfl
  unfold findLongestMatch
  rw [hcand, List.foldl_cons]
  have hml : matchLen a a a.length a.length 0 0 = a.length := by
    unfold matchLen
    simp [List.take_length, commonPrefixLen_self]
  have hstep1 : flmStep a a a.length a.length (0, 0, 0) (0, 0) = (0, 0, a.length) := by
    simp only [flmStep]
    rw [hml, if_pos h]
  rw [hstep1]
  exact foldl_flmStep_keep a a a.length a.length _ _ (Nat.le_refl _)

theorem mbFuel_out_of_range (a b : List α) (fuel alo ahi blo bhi : Nat)
    (h : ahi ≤ alo) :
    matchingBlocksFuel a b fuel alo ahi blo bhi = [] := by
  cases fuel with
  | zero => rfl
  | succ f =>
    simp only [matchingBlocksFuel]
    rw [flm_out_of_range a b alo ahi blo bhi h]
    simp

theorem getMatchingBlocks_self (a : List α) (h : 0 < a.length) :
    getMatchingBlocks a a = [(0, 0, a.length), (a.length, a.length, 0)] := by
  unfold getMatchingBlocks matchingBlocksRec
  rw [Nat.sub_zero]
  have hblocks : matchingBlocksFuel a a a.length 0 a.length 0 a.length
      = [(0, 0, a.length)] := by
    obtain ⟨m, hm⟩ : ∃ m, a.length = m + 1 := ⟨a.length - 1, by omega⟩
    rw [hm]
    simp only [matchingBlocksFuel]
    have hflm : findLongestMatch a a 0 (m + 1) 0 (m + 1) = (0, 0, m + 1) := by
      rw [← hm]
      exact flm_self a h
    rw [hflm]
    have h1 : matchingBlocksFuel a a m 0 0 0 0 = [] :=
      mbFuel_out_of_range a a m 0 0 0 0 (Nat.le_refl 0)
    have h2 : matchingBlocksFuel a a m (m + 1) (m + 1) (m + 1) (m + 1) = [] :=
      mbFuel_out_of_range a a m _ _ _ _ (by omega)
    simp [h1, h2]
  rw [hblocks]
  have hna : nonAdjacentGo [((0 : Nat), (0 : Nat), a.length)] (0, 0, 0)
      = [(0, 0, a.length)] := by
    simp only [nonAdjacentGo]
    rw [if_pos (by simp)]
    simp only [nonAdjacentGo, Nat.zero_add]
    rw [if_pos h]
  rw [hna]
  rfl

theorem getOpcodes_self (a : List α) (h : 0 < a.length) :
    getOpcodes a a = [⟨"equal", 0, a.length, 0, a.length⟩] := by
  unfold getOpcodes
  rw [getMatchingBlocks_self a h]
  simp only [getOpcodesGo]
  rw [if_neg (by omega), if_neg (by omega), if_neg (by omega), if_pos h]
  rw [if_neg (by omega), if_neg (by omega), if_neg (by omega), if_neg (by omega)]
  simp

-- ═══════════════════════════════════════════════════════════════════════
-- merge3 on three identical sequences
-- ═══════════════════════════════════════════════════════════════════════

theorem changed_equal_op (n : Nat) (i : Nat) :
    changed [⟨"equal", 0, n, 0, n⟩] i = false := by
  unfold changed
  simp

theorem scanWhileFuel_all (p : Nat → Bool) (n fuel i : Nat)
    (hp : ∀ x, p x = true) (hfuel : n ≤ i + fuel) (hi : i ≤ n) :
    scanWhileFuel p n fuel i = n := by
  induction fuel generalizing i with
  | zero => simp only [scanWhileFuel]; omega
  | succ f ih =>
    simp only [scanWhileFuel]
    by_cases hin : i < n
    · rw [if_pos hin, if_pos (hp i)]
      exact ih (i + 1) (by omega) (by omega)
    · rw [if_neg hin]
      omega

theorem scanWhile_all (n : Nat) (p : Nat → Bool) (i : Nat)
    (hp : ∀ x, p x = true) (hi : i ≤ n) : scanWhile n p i = n :=
  scanWhileFuel_all p n (n - i) i hp (by omega) hi

theorem sliceList_zero_length (l : List α) : sliceList l 0 l.length = l := by
  unfold sliceList
  simp [List.take_length]

theorem merge3WalkFuel_out (base left right : List String)
    (lops rops : List Opcode) (fuel i : Nat) (h : base.length ≤ i) :
    merge3WalkFuel base left right lops rops fuel i = [] := by
  cases fuel with
  | zero => rfl
  | succ f =>
    simp only [merge3WalkFuel]
    rw [if_neg (by omega)]

theorem merge3Walk_unchanged (base left right : List String)
    (lops rops : List Opcode) (hn : 0 < base.length)
    (hl : ∀ x, changed lops x = false) (hr : ∀ x, changed rops x = false) :
    merge3Walk base left right lops rops 0
      = [⟨MergeTag.RESOLVED, base, base, base, base⟩] := by
  unfold merge3Walk
  rw [Nat.sub_zero]
  obtain ⟨m, hm⟩ : ∃ m, base.length = m + 1 := ⟨base.length - 1, by omega⟩
  conv_lhs => rw [hm]
  simp only [merge3WalkFuel]
  rw [if_pos (show (0 : Nat) < base.length from hn)]
  rw [if_pos (show changed lops 0 = false ∧ changed rops 0 = false from ⟨hl 0, hr 0⟩)]
  have hj : scanWhile base.length
      (fun x => !(changed lops x) && !(changed rops x)) 0 = base.length :=
    scanWhile_all _ _ _ (fun x => by simp [hl x, hr x]) (by omega)
  simp only [hj, sliceList_zero_length]
  rw [merge3WalkFuel_out base left right lops rops m base.length (Nat.le_refl _)]

theorem opMap_equal_op (n : Nat) (t : List String) :
    opMap [⟨"equal", 0, n, 0, n⟩] t = [] := by
  unfold opMap
  simp

/-- C8: `merge3(X, X, X)` yields only `Resolved` chunks (no `Conflict`) and
the concatenation of the chunks' `result_lines` is `X` itself: for a
nonempty `X` the diff of `X` against itself is one whole-sequence equal
opcode, no base line is marked changed, and the walk produces the single
pass-through chunk; for empty `X` there are no chunks at all. -/
theorem merge3_identity (X : List String) :
    (∀ c ∈ merge3 X X X, c.tag = MergeTag.RESOLVED) ∧
    (merge3 X X X).flatMap MergeChunk.result_lines = X := by
  by_cases hX : X = []
  · subst hX
    exact ⟨by decide, by decide⟩
  · have hlen : 0 < X.length := List.length_pos.mpr hX
    have hops := getOpcodes_self X hlen
    have hmerge : merge3 X X X = [⟨MergeTag.RESOLVED, X, X, X, X⟩] := by
      unfold merge3
      simp only [hops]
      rw [merge3Walk_unchanged X X X _ _ hlen
        (fun x => changed_equal_op X.length x) (fun x => changed_equal_op X.length x)]
      simp only [opMap_equal_op]
      simp
    rw [hmerge]
    constructor
    · intro c hc
      rw [List.mem_singleton] at hc
      subst hc
      rfl
    · simp [List.flatMap]

-- ═══════════════════════════════════════════════════════════════════════
-- Shape of the chunks produced by merge3
-- ═══════════════════════════════════════════════════════════════════════

/-- Every chunk of the walk satisfies: a `CONFLICT` chunk records a left
replacement, right replacement and base region that are pairwise different
(the three guards of the `if` chain), and a `RESOLVED` chunk's result is its
own left or right side. -/
theorem merge3WalkFuel_chunk_shape (base left right : List String)
    (lops rops : List Opcode) :
    ∀ fuel i c, c ∈ merge3WalkFuel base left right lops rops fuel i →
      (c.tag = MergeTag.CONFLICT →
        c.left_lines ≠ c.base_lines ∧ c.right_lines ≠ c.base_lines ∧
        c.left_lines ≠ c.right_lines) ∧
      (c.tag = MergeTag.RESOLVED →
        c.result_lines = c.left_lines ∨ c.result_lines = c.right_lines) := by
  intro fuel
  induction fuel with
  | zero =>
    intro i c hc
    simp [merge3WalkFuel] at hc
  | succ f ih =>
    intro i c hc
    simp only [merge3WalkFuel] at hc
    by_cases hi : i < base.length
    · rw [if_pos hi] at hc
      by_cases hch : changed lops i = false ∧ changed rops i = false
      · rw [if_pos hch] at hc
        rcases List.mem_cons.mp hc with hc1 | hc2
        · subst hc1
          refine ⟨fun ht => by simp at ht, fun _ => Or.inl rfl⟩
        · exact ih _ _ hc2
      · rw [if_neg hch] at hc
        rcases List.mem_cons.mp hc with hc1 | hc2
        · subst hc1
          split_ifs with h1 h2 h3
          · exact ⟨fun ht => by simp at ht, fun _ => Or.inl rfl⟩
          · exact ⟨fun ht => by simp at ht, fun _ => Or.inr rfl⟩
          · exact ⟨fun ht => by simp at ht, fun _ => Or.inl rfl⟩
          · exact ⟨fun _ => ⟨h2, h3, h1⟩, fun ht => by simp at ht⟩
        · exact ih _ _ hc2
    · rw [if_neg hi] at hc
      simp at hc

/-- Every chunk of `merge3` satisfies the two shape properties: the walk
chunks by the previous lemma, and the trailing pure-insertion chunks are
`RESOLVED` with the inserted lines as both one side and the result. -/
theorem merge3_chunk_shape (base left right : List String) (c : MergeChunk)
    (hc : c ∈ merge3 base left right) :
    (c.tag = MergeTag.CONFLICT →
      c.left_lines ≠ c.base_lines ∧ c.right_lines ≠ c.base_lines ∧
      c.left_lines ≠ c.right_lines) ∧
    (c.tag = MergeTag.RESOLVED →
      c.result_lines = c.left_lines ∨ c.result_lines = c.right_lines) := by
  unfold merge3 at hc
  rw [List.mem_append, List.mem_append] at hc
  rcases hc with (hw | hl) | hr
  · exact merge3WalkFuel_chunk_shape base left right _ _ _ _ c hw
  · rw [List.mem_filterMap] at hl
    obtain ⟨e, _, he⟩ := hl
    by_cases hcond : base.length ≤ e.1.1 ∧ e.2 ≠ []
    · rw [if_pos hcond] at he
      obtain rfl := Option.some.inj he
      exact ⟨fun ht => by simp at ht, fun _ => Or.inl rfl⟩
    · rw [if_neg hcond] at he
      exact absurd he (by simp)
  · rw [List.mem_filterMap] at hr
    obtain ⟨e, _, he⟩ := hr
    by_cases hcond : base.length ≤ e.1.1 ∧ e.2 ≠ []
    · rw [if_pos hcond] at he
      obtain rfl := Option.some.inj he
      exact ⟨fun ht => by simp at ht, fun _ => Or.inr rfl⟩
    · rw [if_neg hcond] at he
      exact absurd he (by simp)

/-- C3: for every `base`, `left`, `right`, a chunk returned by `merge3` is
tagged `Conflict` only if its left replacement differs from its base region,
its right replacement differs from its base region, and the two replacements
differ from each other (the three guards falsified on the way to the
`CONFLICT` branch). -/
theorem merge3_conflict_minimal (base left right : List String)
    (c : MergeChunk) (hc : c ∈ merge3 base left right)
    (ht : c.tag = MergeTag.CONFLICT) :
    c.left_lines ≠ c.base_lines ∧ c.right_lines ≠ c.base_lines ∧
    c.left_lines ≠ c.right_lines :=
  (merge3_chunk_shape base left right c hc).1 ht

/-- C3 (witness): the conflict chunk of `merge3(["x"], ["y"], ["z"])`. -/
theorem merge3_conflict_minimal_witness :
    (["y"] : List String) ≠ ["x"] ∧ (["z"] : List String) ≠ ["x"] ∧
    (["y"] : List String) ≠ ["z"] :=
  merge3_conflict_minimal ["x"] ["y"] ["z"]
    ⟨MergeTag.CONFLICT, ["x"], ["y"], ["z"], []⟩ (by decide) rfl

/-- C10: every `Resolved` chunk of `merge3` has `result_lines` equal to its
own `left_lines` or to its own `right_lines`; an automatically merged result
never contains a line sequence that appears on neither side. -/
theorem merge3_resolved_from_side (base left right : List String)
    (c : MergeChunk) (hc : c ∈ merge3 base left right)
    (ht : c.tag = MergeTag.RESOLVED) :
    c.result_lines = c.left_lines ∨ c.result_lines = c.right_lines :=
  (merge3_chunk_shape base left right c hc).2 ht

/-- C10 (witness): the one-sided-edit chunk of `merge3(["a"], ["b"], ["a"])`. -/
theorem merge3_resolved_from_side_witness :
    (["b"] : List String) = ["b"] ∨ (["b"] : List String) = ["a"] :=
  merge3_resolved_from_side ["a"] ["b"] ["a"]
    ⟨MergeTag.RESOLVED, ["a"], ["b"], ["a"], ["b"]⟩ (by decide) rfl

-- ═══════════════════════════════════════════════════════════════════════
-- Structure of the matching blocks and opcodes (partition invariants)
-- ═══════════════════════════════════════════════════════════════════════

/-- Matching blocks lying inside `[·, ahi) × [·, bhi)`: in order, nonempty,
each starting at or after the previous block's end on both sides. -/
def chainBlocks (ahi bhi : Nat) : Nat → Nat → List (Nat × Nat × Nat) → Prop
  | _, _, [] => True
  | i, j, (ai, bj, k) :: rest =>
    i ≤ ai ∧ j ≤ bj ∧ 0 < k ∧ ai + k ≤ ahi ∧ bj + k ≤ bhi ∧
      chainBlocks ahi bhi (ai + k) (bj + k) rest

theorem chainBlocks_mono (ahi bhi ahi' bhi' : Nat) (bs : List (Nat × Nat × Nat)) :
    ∀ i j i' j', chainBlocks ahi bhi i j bs → i' ≤ i → j' ≤ j →
      ahi ≤ ahi' → bhi ≤ bhi' → chainBlocks ahi' bhi' i' j' bs := by
  induction bs with
  | nil => intro i j i' j' _ _ _ _ _; trivial
  | cons blk rest ih =>
    intro i j i' j' h hi hj ha hb
    rcases blk with ⟨ai, bj, k⟩
    simp only [chainBlocks] at h ⊢
    obtain ⟨h1, h2, h3, h4, h5, h6⟩ := h
    exact ⟨by omega, by omega, h3, by omega, by omega,
      ih _ _ _ _ h6 (Nat.le_refl _) (Nat.le_refl _) ha hb⟩

theorem chainBlocks_append (ahi bhi mi mj : Nat) (L M : List (Nat × Nat × Nat)) :
    ∀ i j, chainBlocks mi mj i j L → chainBlocks ahi bhi mi mj M →
      mi ≤ ahi → mj ≤ bhi → i ≤ mi → j ≤ mj →
      chainBlocks ahi bhi i j (L ++ M) := by
  induction L with
  | nil =>
    intro i j _ hM ha hb hi hj
    exact chainBlocks_mono ahi bhi ahi bhi M mi mj i j hM hi hj (Nat.le_refl _) (Nat.le_refl _)
  | cons blk rest ih =>
    intro i j hL hM ha hb hi hj
    rcases blk with ⟨ai, bj, k⟩
    rw [List.cons_append]
    simp only [chainBlocks] at hL ⊢
    obtain ⟨h1, h2, h3, h4, h5, h6⟩ := hL
    exact ⟨h1, h2, h3, by omega, by omega, ih _ _ h6 hM ha hb (by omega) (by omega)⟩

/-- The blocks of the recursive matcher stage are chained and lie inside
the given ranges. -/
theorem mbFuel_chain (a b : List α) :
    ∀ fuel alo ahi blo bhi,
      chainBlocks ahi bhi alo blo (matchingBlocksFuel a b fuel alo ahi blo bhi) := by
  intro fuel
  induction fuel with
  | zero => intro alo ahi blo bhi; trivial
  | succ f ih =>
    intro alo ahi blo bhi
    simp only [matchingBlocksFuel]
    rcases hflm : findLongestMatch a b alo ahi blo bhi with ⟨bi, bj, bk⟩
    by_cases hk : 0 < bk
    · rw [if_pos hk]
      have hb := flm_pos_bounds a b alo ahi blo bhi bi bj bk hflm hk
      refine chainBlocks_append ahi bhi bi bj _ _ alo blo (ih alo bi blo bj) ?_
        (by omega) (by omega) (by omega) (by omega)
      simp only [chainBlocks]
      exact ⟨Nat.le_refl _, Nat.le_refl _, hk, hb.2.1, hb.2.2.2,
        ih (bi + bk) ahi (bj + bk) bhi⟩
    · rw [if_neg hk]
      trivial

/-- The final block list handed to `get_opcodes`: chained blocks inside the
two sequences, all nonempty except the last, which is exactly the terminal
`(la, lb, 0)`. -/
def blocksWf (la lb : Nat) : Nat → Nat → List (Nat × Nat × Nat) → Prop
  | _, _, [] => False
  | i, j, (ai, bj, k) :: rest =>
    i ≤ ai ∧ j ≤ bj ∧
      ((rest = [] ∧ ai = la ∧ bj = lb ∧ k = 0) ∨
       (0 < k ∧ ai + k ≤ la ∧ bj + k ≤ lb ∧ blocksWf la lb (ai + k) (bj + k) rest))

/-- The merge loop turns chained blocks (with the running current block)
into a well-formed list once the terminal sentinel is appended. -/
theorem nonAdjacentGo_wf (la lb : Nat) :
    ∀ (bs : List (Nat × Nat × Nat)) (ci cj ck p q : Nat),
      p ≤ ci → q ≤ cj → ci + ck ≤ la → cj + ck ≤ lb →
      chainBlocks la lb (ci + ck) (cj + ck) bs →
      blocksWf la lb p q (nonAdjacentGo bs (ci, cj, ck) ++ [(la, lb, 0)]) := by
  intro bs
  induction bs with
  | nil =>
    intro ci cj ck p q hp hq hci hcj _
    simp only [nonAdjacentGo]
    by_cases hck : 0 < ck
    · rw [if_pos hck]
      simp only [List.cons_append, List.nil_append, blocksWf]
      exact ⟨hp, hq, Or.inr ⟨hck, hci, hcj, ⟨by omega, by omega, Or.inl (by simp)⟩⟩⟩
    · rw [if_neg hck]
      simp only [List.nil_append, blocksWf]
      exact ⟨by omega, by omega, Or.inl (by simp)⟩
  | cons blk rest ih =>
    intro ci cj ck p q hp hq hci hcj hchain
    rcases blk with ⟨ai, bj, k⟩
    simp only [chainBlocks] at hchain
    obtain ⟨h1, h2, h3, h4, h5, h6⟩ := hchain
    simp only [nonAdjacentGo]
    by_cases hadj : ci + ck = ai ∧ cj + ck = bj
    · rw [if_pos hadj]
      have harg : chainBlocks la lb (ci + (ck + k)) (cj + (ck + k)) rest := by
        have e1 : ci + (ck + k) = ai + k := by omega
        have e2 : cj + (ck + k) = bj + k := by omega
        rw [e1, e2]
        exact h6
      exact ih ci cj (ck + k) p q hp hq (by omega) (by omega) harg
    · rw [if_neg hadj]
      by_cases hck : 0 < ck
      · rw [if_pos hck]
        simp only [List.cons_append, blocksWf]
        exact ⟨hp, hq, Or.inr ⟨hck, hci, hcj, ih ai bj k (ci + ck) (cj + ck) h1 h2 h4 h5 h6⟩⟩
      · rw [if_neg hck]
        simp only [List.nil_append]
        exact ih ai bj k p q (by omega) (by omega) h4 h5 h6

theorem getMatchingBlocks_wf (a b : List α) :
    blocksWf a.length b.length 0 0 (getMatchingBlocks a b) := by
  unfold getMatchingBlocks matchingBlocksRec
  exact nonAdjacentGo_wf a.length b.length _ 0 0 0 0 0 (Nat.le_refl 0) (Nat.le_refl 0)
    (by omega) (by omega) (mbFuel_chain a b _ 0 a.length 0 b.length)

/-- The opcode-list invariant: opcodes are contiguous on both sides from
`(i, j)` up to exactly `(la, lb)`, and each opcode is one of the four tags
with the corresponding emptiness/nonemptiness of its two ranges (an equal
opcode moreover pairs ranges of the same size). -/
def opsChain (la lb : Nat) : Nat → Nat → List Opcode → Prop
  | i, j, [] => i = la ∧ j = lb
  | i, j, op :: rest =>
    op.i1 = i ∧ op.j1 = j ∧ i ≤ op.i2 ∧ j ≤ op.j2 ∧ op.i2 ≤ la ∧ op.j2 ≤ lb ∧
    ((op.tag = "equal" ∧ op.i1 < op.i2 ∧ op.i2 - op.i1 = op.j2 - op.j1) ∨
     (op.tag = "replace" ∧ op.i1 < op.i2 ∧ op.j1 < op.j2) ∨
     (op.tag = "delete" ∧ op.i1 < op.i2 ∧ op.j1 = op.j2) ∨
     (op.tag = "insert" ∧ op.i1 = op.i2 ∧ op.j1 < op.j2)) ∧
    opsChain la lb op.i2 op.j2 rest

/-- The gap opcode emitted before a block extends an opcode chain. -/
theorem opsChain_gap (la lb i j ai bj : Nat) (rest : List Opcode)
    (hia : i ≤ ai) (hjb : j ≤ bj) (hub : ai ≤ la) (hvb : bj ≤ lb)
    (hrest : opsChain la lb ai bj rest) :
    opsChain la lb i j
      ((if i < ai ∧ j < bj then [⟨"replace", i, ai, j, bj⟩]
        else if i < ai then [⟨"delete", i, ai, j, bj⟩]
        else if j < bj then [⟨"insert", i, ai, j, bj⟩]
        else []) ++ rest) := by
  by_cases h1 : i < ai ∧ j < bj
  · rw [if_pos h1, List.singleton_append]
    exact ⟨rfl, rfl, show i ≤ ai by omega, show j ≤ bj by omega, hub, hvb,
      Or.inr (Or.inl ⟨rfl, h1.1, h1.2⟩), hrest⟩
  · rw [if_neg h1]
    by_cases h2 : i < ai
    · rw [if_pos h2, List.singleton_append]
      have hjeq : j = bj := by omega
      exact ⟨rfl, rfl, show i ≤ ai by omega, show j ≤ bj by omega, hub, hvb,
        Or.inr (Or.inr (Or.inl ⟨rfl, h2, hjeq⟩)), hrest⟩
    · rw [if_neg h2]
      by_cases h3 : j < bj
      · rw [if_pos h3, List.singleton_append]
        have hieq : i = ai := by omega
        exact ⟨rfl, rfl, show i ≤ ai by omega, show j ≤ bj by omega, hub, hvb,
          Or.inr (Or.inr (Or.inr ⟨rfl, hieq, h3⟩)), hrest⟩
      · rw [if_neg h3, List.nil_append]
        have hieq : i = ai := by omega
        have hjeq : j = bj := by omega
        rw [hieq, hjeq]
        exact hrest

theorem opsChain_eq_op (la lb ai bj k : Nat) (rest : List Opcode) (hk : 0 < k)
    (hub : ai + k ≤ la) (hvb : bj + k ≤ lb)
    (hrest : opsChain la lb (ai + k) (bj + k) rest) :
    opsChain la lb ai bj (⟨"equal", ai, ai + k, bj, bj + k⟩ :: rest) :=
  ⟨rfl, rfl, show ai ≤ ai + k by omega, show bj ≤ bj + k by omega, hub, hvb,
    Or.inl ⟨rfl, show ai < ai + k by omega, show ai + k - ai = bj + k - bj by omega⟩, hrest⟩

theorem getOpcodesGo_chain (la lb : Nat) :
    ∀ (bs : List (Nat × Nat × Nat)) (i j : Nat),
      blocksWf la lb i j bs → opsChain la lb i j (getOpcodesGo bs i j) := by
  intro bs
  induction bs with
  | nil =>
    intro i j h
    exact absurd h (by simp [blocksWf])
  | cons blk rest ih =>
    intro i j h
    rcases blk with ⟨ai, bj, k⟩
    simp only [blocksWf] at h
    obtain ⟨h1, h2, hcase⟩ := h
    simp only [getOpcodesGo]
    rcases hcase with ⟨hrest, hai, hbj, hk⟩ | ⟨hk, hub, hvb, hwf⟩
    · subst hrest hai hbj hk
      rw [show (if (0 : Nat) < 0 then
            [(⟨"equal", ai, ai + 0, bj, bj + 0⟩ : Opcode)] else []) = [] from rfl]
      rw [show getOpcodesGo [] (ai + 0) (bj + 0) = [] from rfl]
      rw [List.append_nil, List.append_nil]
      have hgap := opsChain_gap ai bj i j ai bj [] h1 h2 (Nat.le_refl _) (Nat.le_refl _)
        ⟨rfl, rfl⟩
      rw [List.append_nil] at hgap
      exact hgap
    · rw [if_pos hk, List.append_assoc, List.singleton_append]
      exact opsChain_gap la lb i j ai bj _ h1 h2 (by omega) (by omega)
        (opsChain_eq_op la lb ai bj k _ hk hub hvb (ih (ai + k) (bj + k) hwf))

/-- The full opcode list of the matcher partitions `[0, |a|)` and
`[0, |b|)`. -/
theorem getOpcodes_chain (a b : List α) :
    opsChain a.length b.length 0 0 (getOpcodes a b) :=
  getOpcodesGo_chain a.length b.length _ 0 0 (getMatchingBlocks_wf a b)

-- ═══════════════════════════════════════════════════════════════════════
-- Character-span partition (C6)
-- ═══════════════════════════════════════════════════════════════════════

/-- `spans` tile `[i, n)` contiguously and in order: each span starts where
the previous one ended, is nonempty, stays inside `n`, and the last ends
exactly at `n`. -/
def spansCover (n : Nat) : Nat → List CharSpan → Prop
  | i, [] => i = n
  | i, s :: rest => s.start = i ∧ i < s.stop ∧ s.stop ≤ n ∧ spansCover n s.stop rest

/-- The left-side spans built by `_char_diff` from a chained opcode list
tile the `a`-side range: insert opcodes have an empty `a`-range and emit no
span; the other three are nonempty on the `a` side and contiguous. -/
theorem spansCover_left_of_opsChain (la lb : Nat) :
    ∀ (ops : List Opcode) (i j : Nat), opsChain la lb i j ops →
      spansCover la i (ops.flatMap fun op =>
        if op.tag = "equal" then [⟨op.i1, op.i2, "equal"⟩]
        else if op.tag = "replace" then [⟨op.i1, op.i2, "delete"⟩]
        else if op.tag = "delete" then [⟨op.i1, op.i2, "delete"⟩]
        else []) := by
  intro ops
  induction ops with
  | nil => intro i j h; exact h.1
  | cons op rest ih =>
    intro i j h
    obtain ⟨hi1, hj1, hii, hjj, hila, hjlb, htags, hrest⟩ := h
    rw [List.flatMap_cons]
    rcases htags with ⟨ht, hlt, _⟩ | ⟨ht, hlt, _⟩ | ⟨ht, hlt, _⟩ | ⟨ht, hieq, _⟩
    · rw [if_pos ht, List.singleton_append]
      exact ⟨hi1, hi1 ▸ hlt, hila, ih op.i2 op.j2 hrest⟩
    · rw [if_neg (by rw [ht]; decide), if_pos ht, List.singleton_append]
      exact ⟨hi1, hi1 ▸ hlt, hila, ih op.i2 op.j2 hrest⟩
    · rw [if_neg (by rw [ht]; decide), if_neg (by rw [ht]; decide), if_pos ht,
        List.singleton_append]
      exact ⟨hi1, hi1 ▸ hlt, hila, ih op.i2 op.j2 hrest⟩
    · rw [if_neg (by rw [ht]; decide), if_neg (by rw [ht]; decide),
        if_neg (by rw [ht]; decide), List.nil_append]
      have he : i = op.i2 := by omega
      exact he ▸ ih op.i2 op.j2 hrest

/-- Right-side analogue: delete opcodes have an empty `b`-range and emit no
span; the other three are nonempty on the `b` side and contiguous. -/
theorem spansCover_right_of_opsChain (la lb : Nat) :
    ∀ (ops : List Opcode) (i j : Nat), opsChain la lb i j ops →
      spansCover lb j (ops.flatMap fun op =>
        if op.tag = "equal" then [⟨op.j1, op.j2, "equal"⟩]
        else if op.tag = "replace" then [⟨op.j1, op.j2, "insert"⟩]
        else if op.tag = "insert" then [⟨op.j1, op.j2, "insert"⟩]
        else []) := by
  intro ops
  induction ops with
  | nil => intro i j h; exact h.2
  | cons op rest ih =>
    intro i j h
    obtain ⟨hi1, hj1, hii, hjj, hila, hjlb, htags, hrest⟩ := h
    rw [List.flatMap_cons]
    rcases htags with ⟨ht, _, hsz⟩ | ⟨ht, _, hlt⟩ | ⟨ht, hlt, hjeq⟩ | ⟨ht, _, hlt⟩
    · rw [if_pos ht, List.singleton_append]
      have hj2 : j < op.j2 := by omega
      exact ⟨hj1, hj2, hjlb, ih op.i2 op.j2 hrest⟩
    · rw [if_neg (by rw [ht]; decide), if_pos ht, List.singleton_append]
      exact ⟨hj1, hj1 ▸ hlt, hjlb, ih op.i2 op.j2 hrest⟩
    · rw [if_neg (by rw [ht]; decide), if_neg (by rw [ht]; decide),
        if_neg (by rw [ht]; decide), List.nil_append]
      have he : j = op.j2 := by omega
      exact he ▸ ih op.i2 op.j2 hrest
    · rw [if_neg (by rw [ht]; decide), if_neg (by rw [ht]; decide), if_pos ht,
        List.singleton_append]
      exact ⟨hj1, hj1 ▸ hlt, hjlb, ih op.i2 op.j2 hrest⟩

/-- The spans returned by `_char_diff` partition both lines. -/
theorem _char_diff_partition (old_line new_line : String) :
    spansCover old_line.length 0 (_char_diff old_line new_line).1 ∧
    spansCover new_line.length 0 (_char_diff old_line new_line).2 := by
  have hchain := getOpcodes_chain old_line.toList new_line.toList
  exact ⟨spansCover_left_of_opsChain _ _ _ 0 0 hchain,
    spansCover_right_of_opsChain _ _ _ 0 0 hchain⟩

/-- Context folding only re-emits records of the raw stream or hunk
markers. -/
theorem foldLoop_mem (raw : List DiffLine) (k : Nat) :
    ∀ (idxs : List Nat) (next : Nat) (acc : List DiffLine) (d : DiffLine),
      (∀ x ∈ acc, x ∈ raw ∨ x = hunkLine) →
      d ∈ foldLoop raw k idxs next acc → d ∈ raw ∨ d = hunkLine := by
  intro idxs
  induction idxs with
  | nil =>
    intro next acc d hacc hd
    simp only [foldLoop] at hd
    split at hd
    · rw [List.mem_append] at hd
      rcases hd with hd | hd
      · rw [List.mem_append] at hd
        rcases hd with hd | hd
        · exact hacc d hd
        · exact Or.inl (List.mem_of_mem_drop (List.mem_of_mem_take hd))
      · split at hd
        · rw [List.mem_singleton] at hd
          exact Or.inr hd
        · simp at hd
    · exact hacc d hd
  | cons idx rest ih =>
    intro next acc d hacc hd
    simp only [foldLoop] at hd
    refine ih _ _ d ?_ hd
    intro x hx
    rw [List.mem_append] at hx
    rcases hx with hx | hx
    · split at hx
      · rw [List.mem_append] at hx
        rcases hx with hx | hx
        · exact hacc x hx
        · rw [List.mem_singleton] at hx
          exact Or.inr hx
      · exact hacc x hx
    · exact Or.inl (List.mem_of_mem_drop (List.mem_of_mem_take hx))

theorem fold_mem (raw : List DiffLine) (k : Nat) (d : DiffLine)
    (hd : d ∈ fold raw k) : d ∈ raw ∨ d = hunkLine := by
  unfold fold at hd
  split at hd
  · split at hd
    · rw [List.mem_append] at hd
      rcases hd with hd | hd
      · exact Or.inl (List.mem_of_mem_take hd)
      · rw [List.mem_cons] at hd
        rcases hd with hd | hd
        · exact Or.inr hd
        · split at hd
          · exact Or.inl hd
          · exact Or.inl (List.mem_of_mem_drop hd)
    · exact Or.inl hd
  · exact foldLoop_mem raw k _ 0 [] d (by simp) hd

/-- A `REPLACE` record emitted for an opcode carries exactly the spans of
`_char_diff` on its own two texts (only the positionally paired lines of a
replace opcode are tagged `REPLACE`). -/
theorem emitOpcode_replace_shape (A B : List String) (op : Opcode) (d : DiffLine)
    (hd : d ∈ emitOpcode A B op) (ht : d.tag = LineTag.REPLACE) :
    d.left_char_spans = (_char_diff d.left_text d.right_text).1 ∧
    d.right_char_spans = (_char_diff d.left_text d.right_text).2 := by
  unfold emitOpcode at hd
  split_ifs at hd
  · rw [List.mem_map] at hd
    obtain ⟨k, _, hk⟩ := hd
    subst hk
    simp at ht
  · rw [List.mem_append, List.mem_append] at hd
    rcases hd with (hp | hdl) | hins
    · rw [List.mem_map] at hp
      obtain ⟨k, _, hk⟩ := hp
      subst hk
      exact ⟨rfl, rfl⟩
    · rw [List.mem_map] at hdl
      obtain ⟨k, _, hk⟩ := hdl
      subst hk
      simp at ht
    · rw [List.mem_map] at hins
      obtain ⟨k, _, hk⟩ := hins
      subst hk
      simp at ht
  · rw [List.mem_map] at hd
    obtain ⟨k, _, hk⟩ := hd
    subst hk
    simp at ht
  · rw [List.mem_map] at hd
    obtain ⟨k, _, hk⟩ := hd
    subst hk
    simp at ht
  · simp at hd

/-- C6: for every `REPLACE` record produced by `diff_lines` (any inputs,
any context), `left_char_spans` partition `[0, len(left_text))` and
`right_char_spans` partition `[0, len(right_text))`: in order, contiguous,
no gaps or overlaps, from 0 to the line's length. -/
theorem diff_lines_span_partition (A B : List String) (ctx : Option Nat)
    (d : DiffLine) (hd : d ∈ diff_lines A B ctx) (ht : d.tag = LineTag.REPLACE) :
    spansCover d.left_text.length 0 d.left_char_spans ∧
    spansCover d.right_text.length 0 d.right_char_spans := by
  have hraw : d ∈ diffLinesRaw A B := by
    cases ctx with
    | none => exact hd
    | some k =>
      rcases fold_mem _ _ _ hd with h | h
      · exact h
      · rw [h] at ht
        exact absurd ht (by decide)
  unfold diffLinesRaw at hraw
  rw [List.mem_flatMap] at hraw
  obtain ⟨op, _, hmem⟩ := hraw
  obtain ⟨hls, hrs⟩ := emitOpcode_replace_shape A B op d hmem ht
  rw [hls, hrs]
  exact _char_diff_partition d.left_text d.right_text

/-- C6 (witness): the `REPLACE` record of `diff_lines(["ab"], ["ac"], None)`
with its concrete spans. -/
theorem diff_lines_span_partition_witness :
    spansCover ("ab" : String).length 0 [⟨0, 1, "equal"⟩, ⟨1, 2, "delete"⟩] ∧
    spansCover ("ac" : String).length 0 [⟨0, 1, "equal"⟩, ⟨1, 2, "insert"⟩] :=
  diff_lines_span_partition ["ab"] ["ac"] none
    ⟨LineTag.REPLACE, some 1, some 1, "ab", "ac",
      [⟨0, 1, "equal"⟩, ⟨1, 2, "delete"⟩], [⟨0, 1, "equal"⟩, ⟨1, 2, "insert"⟩]⟩
    (by decide) rfl

-- ═══════════════════════════════════════════════════════════════════════
-- Round-trip of the raw two-way diff (C1)
-- ═══════════════════════════════════════════════════════════════════════

theorem mapped_filter_keep (l : List Nat) (f : Nat → DiffLine)
    (p : DiffLine → Bool) (g : DiffLine → String)
    (h : ∀ k ∈ l, p (f k) = true) :
    ((l.map f).filter p).map g = l.map (fun k => g (f k)) := by
  induction l with
  | nil => rfl
  | cons x xs ih =>
    rw [List.map_cons, List.filter_cons, if_pos (h x (by simp)), List.map_cons,
      ih (fun k hk => h k (by simp [hk])), List.map_cons]

theorem mapped_filter_drop (l : List Nat) (f : Nat → DiffLine) (p : DiffLine → Bool)
    (h : ∀ k ∈ l, p (f k) = false) : (l.map f).filter p = [] := by
  rw [List.filter_eq_nil_iff]
  intro a ha
  rw [List.mem_map] at ha
  obtain ⟨x, hx, rfl⟩ := ha
  simp [h x hx]

/-- Reading `n` consecutive entries starting at `i` (all in range) is the
slice `l[i : i+n]`. -/
theorem range_map_getD {γ : Type*} (l : List γ) (d : γ) :
    ∀ (n i : Nat), i + n ≤ l.length →
      (List.range n).map (fun k => l.getD (i + k) d) = (l.drop i).take n := by
  intro n
  induction n with
  | zero => intro i _; rfl
  | succ n ih =>
    intro i hi
    rw [List.range_succ_eq_map, List.map_cons, List.map_map]
    have hfun : (fun k => l.getD (i + k) d) ∘ Nat.succ
        = fun k => l.getD ((i + 1) + k) d := by
      funext k
      simp only [Function.comp]
      rw [show i + (k + 1) = i + 1 + k from by omega]
    rw [hfun, ih (i + 1) (by omega)]
    have hilen : i < l.length := by omega
    rw [List.drop_eq_getElem_cons hilen, List.take_succ_cons,
      Nat.add_zero, List.getD_eq_getElem l d hilen]

theorem range_append_range' (nc m : Nat) :
    List.range nc ++ List.range' nc m = List.range (nc + m) := by
  rw [List.range_add, List.range'_eq_map_range]

/-- Concatenating the `left_text` of the non-`INSERT` records emitted for a
chained opcode list restores `A` from position `i` on. -/
theorem leftTexts_of_opsChain (A B : List String) :
    ∀ (ops : List Opcode) (i j : Nat), opsChain A.length B.length i j ops →
      ((ops.flatMap (emitOpcode A B)).filter
          (fun d => !(d.tag == LineTag.INSERT))).map DiffLine.left_text
        = A.drop i := by
  intro ops
  induction ops with
  | nil =>
    intro i j h
    rw [h.1]
    simp [List.drop_length]
  | cons op rest ih =>
    intro i j h
    obtain ⟨hi1, hj1, hii, hjj, hila, hjlb, htags, hrest⟩ := h
    rw [List.flatMap_cons, List.filter_append, List.map_append, ih op.i2 op.j2 hrest]
    suffices hop : ((emitOpcode A B op).filter
        (fun d => !(d.tag == LineTag.INSERT))).map DiffLine.left_text
        = (A.drop i).take (op.i2 - i) by
      rw [hop]
      have hdd : (A.drop i).drop (op.i2 - i) = A.drop op.i2 := by
        rw [List.drop_drop, show i + (op.i2 - i) = op.i2 from by omega]
      rw [← hdd]
      exact List.take_append_drop _ _
    unfold emitOpcode
    rcases htags with ⟨ht, hlt, hsz⟩ | ⟨ht, hlt, hlt2⟩ | ⟨ht, hlt, hjeq⟩ | ⟨ht, hieq, hlt2⟩
    · rw [if_pos ht]
      rw [mapped_filter_keep _ _ _ _ (fun k _ => rfl)]
      rw [range_map_getD A "" (op.i2 - op.i1) op.i1 (by omega)]
      rw [hi1]
    · rw [if_neg (by rw [ht]; decide), if_pos ht]
      rw [List.filter_append, List.filter_append, List.map_append, List.map_append]
      rw [mapped_filter_keep _ _ _ _ (fun k _ => rfl)]
      rw [mapped_filter_keep _ _ _ _ (fun k _ => rfl)]
      rw [mapped_filter_drop _ _ _ (fun k _ => rfl), List.map_nil, List.append_nil]
      rw [← List.map_append, range_append_range',
        show min (op.i2 - op.i1) (op.j2 - op.j1)
          + (op.i2 - op.i1 - min (op.i2 - op.i1) (op.j2 - op.j1)) = op.i2 - op.i1
          from by omega]
      rw [range_map_getD A "" (op.i2 - op.i1) op.i1 (by omega)]
      rw [hi1]
    · rw [if_neg (by rw [ht]; decide), if_neg (by rw [ht]; decide), if_pos ht]
      rw [mapped_filter_keep _ _ _ _ (fun k _ => rfl)]
      rw [range_map_getD A "" (op.i2 - op.i1) op.i1 (by omega)]
      rw [hi1]
    · rw [if_neg (by rw [ht]; decide), if_neg (by rw [ht]; decide),
        if_neg (by rw [ht]; decide), if_pos ht]
      rw [mapped_filter_drop _ _ _ (fun k _ => rfl)]
      rw [show op.i2 - i = 0 from by omega, List.take_zero, List.map_nil]

/-- Concatenating the `right_text` of the non-`DELETE` records emitted for a
chained opcode list restores `B` from position `j` on. -/
theorem rightTexts_of_opsChain (A B : List String) :
    ∀ (ops : List Opcode) (i j : Nat), opsChain A.length B.length i j ops →
      ((ops.flatMap (emitOpcode A B)).filter
          (fun d => !(d.tag == LineTag.DELETE))).map DiffLine.right_text
        = B.drop j := by
  intro ops
  induction ops with
  | nil =>
    intro i j h
    rw [h.2]
    simp [List.drop_length]
  | cons op rest ih =>
    intro i j h
    obtain ⟨hi1, hj1, hii, hjj, hila, hjlb, htags, hrest⟩ := h
    rw [List.flatMap_cons, List.filter_append, List.map_append, ih op.i2 op.j2 hrest]
    suffices hop : ((emitOpcode A B op).filter
        (fun d => !(d.tag == LineTag.DELETE))).map DiffLine.right_text
        = (B.drop j).take (op.j2 - j) by
      rw [hop]
      have hdd : (B.drop j).drop (op.j2 - j) = B.drop op.j2 := by
        rw [List.drop_drop, show j + (op.j2 - j) = op.j2 from by omega]
      rw [← hdd]
      exact List.take_append_drop _ _
    unfold emitOpcode
    rcases htags with ⟨ht, hlt, hsz⟩ | ⟨ht, hlt, hlt2⟩ | ⟨ht, hlt, hjeq⟩ | ⟨ht, hieq, hlt2⟩
    · rw [if_pos ht]
      rw [mapped_filter_keep _ _ _ _ (fun k _ => rfl)]
      rw [show op.i2 - op.i1 = op.j2 - op.j1 from hsz]
      rw [range_map_getD B "" (op.j2 - op.j1) op.j1 (by omega)]
      rw [hj1]
    · rw [if_neg (by rw [ht]; decide), if_pos ht]
      rw [List.filter_append, List.filter_append, List.map_append, List.map_append]
      rw [mapped_filter_keep _ _ _ _ (fun k _ => rfl)]
      rw [mapped_filter_drop _ _ _ (fun k _ => rfl), List.map_nil]
      rw [mapped_filter_keep _ _ _ _ (fun k _ => rfl)]
      rw [List.append_nil, ← List.map_append, range_append_range',
        show min (op.i2 - op.i1) (op.j2 - op.j1)
          + (op.j2 - op.j1 - min (op.i2 - op.i1) (op.j2 - op.j1)) = op.j2 - op.j1
          from by omega]
      rw [range_map_getD B "" (op.j2 - op.j1) op.j1 (by omega)]
      rw [hj1]
    · rw [if_neg (by rw [ht]; decide), if_neg (by rw [ht]; decide), if_pos ht]
      rw [mapped_filter_drop _ _ _ (fun k _ => rfl)]
      rw [show op.j2 - j = 0 from by omega, List.take_zero, List.map_nil]
    · rw [if_neg (by rw [ht]; decide), if_neg (by rw [ht]; decide),
        if_neg (by rw [ht]; decide), if_pos ht]
      rw [mapped_filter_keep _ _ _ _ (fun k _ => rfl)]
      rw [range_map_getD B "" (op.j2 - op.j1) op.j1 (by omega)]
      rw [hj1]

/-- C1: for all finite `A`, `B`, the raw stream of
`diff_lines(A, B, None)` reconstructs both inputs: the `left_text` of the
records whose tag is not `INSERT` concatenate, in output order, to `A`,
and the `right_text` of the records whose tag is not `DELETE` concatenate
to `B`. -/
theorem diff_lines_roundtrip (A B : List String) :
    ((diff_lines A B none).filter
        (fun d => !(d.tag == LineTag.INSERT))).map DiffLine.left_text = A ∧
    ((diff_lines A B none).filter
        (fun d => !(d.tag == LineTag.DELETE))).map DiffLine.right_text = B := by
  constructor
  · have h := leftTexts_of_opsChain A B (getOpcodes A B) 0 0 (getOpcodes_chain A B)
    rw [List.drop_zero] at h
    exact h
  · have h := rightTexts_of_opsChain A B (getOpcodes A B) 0 0 (getOpcodes_chain A B)
    rw [List.drop_zero] at h
    exact h

-- ═══════════════════════════════════════════════════════════════════════
-- Checked (index-read-failing) variants for totality (C9)
-- ═══════════════════════════════════════════════════════════════════════

theorem mapM_eq_map_of_some {γ δ : Type} (f : γ → Option δ) (g : γ → δ) :
    ∀ l : List γ, (∀ x ∈ l, f x = some (g x)) → l.mapM f = some (l.map g) := by
  intro l
  induction l with
  | nil => intro _; rfl
  | cons x xs ih =>
    intro h
    rw [List.mapM_cons, h x (by simp), ih (fun y hy => h y (by simp [hy]))]
    rfl

theorem get?_eq_some_getD {γ : Type} (l : List γ) (d : γ) (n : Nat) (h : n < l.length) :
    l.get? n = some (l.getD n d) := by
  rw [List.get?_eq_getElem?, List.getElem?_eq_getElem h, List.getD_eq_getElem l d h]

/-- Reading a run of indices with `get?` succeeds and yields the slice when
the run is in range. -/
theorem mapM_get?_slice {γ : Type} (l : List γ) :
    ∀ (c s : Nat), (c ≠ 0 → s + c ≤ l.length) →
      (List.range' s c).mapM (fun x => l.get? x) = some ((l.drop s).take c) := by
  intro c
  induction c with
  | zero => intro s _; rfl
  | succ c ih =>
    intro s h
    have hs : s < l.length := by
      have := h (by omega)
      omega
    have hget : l.get? s = some l[s] := by
      rw [List.get?_eq_getElem?, List.getElem?_eq_getElem hs]
    rw [List.range'_succ, List.mapM_cons, hget, ih (s + 1) (fun _ => by
      have := h (by omega)
      omega)]
    rw [List.drop_eq_getElem_cons hs, List.take_succ_cons]
    rfl

/-- Facts about an individual opcode of a chained list. -/
theorem opsChain_mem_facts (la lb : Nat) :
    ∀ (ops : List Opcode) (i j : Nat) (op : Opcode),
      opsChain la lb i j ops → op ∈ ops →
      op.i2 ≤ la ∧ op.j2 ≤ lb ∧
      ((op.tag = "equal" ∧ op.i1 < op.i2 ∧ op.i2 - op.i1 = op.j2 - op.j1) ∨
       (op.tag = "replace" ∧ op.i1 < op.i2 ∧ op.j1 < op.j2) ∨
       (op.tag = "delete" ∧ op.i1 < op.i2 ∧ op.j1 = op.j2) ∨
       (op.tag = "insert" ∧ op.i1 = op.i2 ∧ op.j1 < op.j2)) := by
  intro ops
  induction ops with
  | nil => intro i j op _ hmem; simp at hmem
  | cons o rest ih =>
    intro i j op h hmem
    obtain ⟨hi1, hj1, hii, hjj, hila, hjlb, htags, hrest⟩ := h
    rcases List.mem_cons.mp hmem with rfl | hmem2
    · exact ⟨hila, hjlb, htags⟩
    · exact ih o.i2 o.j2 op hrest hmem2

/-- Checked variant of `emitOpcode`: each `left_lines[...]` / `right_lines[...]`
subscript of the source is a `get?` read, so the call fails exactly when one
of those subscripts would raise. -/
def emitOpcodeChecked (a b : List String) (op : Opcode) : Option (List DiffLine) :=
  if op.tag = "equal" then
    (List.range (op.i2 - op.i1)).mapM fun k => do
      let lt ← a.get? (op.i1 + k)
      let rt ← b.get? (op.j1 + k)
      pure (⟨LineTag.EQUAL, some (op.i1 + k + 1), some (op.j1 + k + 1),
        lt, rt, [], []⟩ : DiffLine)
  else if op.tag = "replace" then do
    let pairs ← (List.range (min (op.i2 - op.i1) (op.j2 - op.j1))).mapM fun k => do
      let lt ← a.get? (op.i1 + k)
      let rt ← b.get? (op.j1 + k)
      pure (⟨LineTag.REPLACE, some (op.i1 + k + 1), some (op.j1 + k + 1),
        lt, rt, (_char_diff lt rt).1, (_char_diff lt rt).2⟩ : DiffLine)
    let dels ← (List.range' (min (op.i2 - op.i1) (op.j2 - op.j1))
        ((op.i2 - op.i1) - min (op.i2 - op.i1) (op.j2 - op.j1))).mapM fun k => do
      let lt ← a.get? (op.i1 + k)
      pure (⟨LineTag.DELETE, some (op.i1 + k + 1), none, lt, "", [], []⟩ : DiffLine)
    let ins ← (List.range' (min (op.i2 - op.i1) (op.j2 - op.j1))
        ((op.j2 - op.j1) - min (op.i2 - op.i1) (op.j2 - op.j1))).mapM fun k => do
      let rt ← b.get? (op.j1 + k)
      pure (⟨LineTag.INSERT, none, some (op.j1 + k + 1), "", rt, [], []⟩ : DiffLine)
    pure (pairs ++ dels ++ ins)
  else if op.tag = "delete" then
    (List.range (op.i2 - op.i1)).mapM fun k => do
      let lt ← a.get? (op.i1 + k)
      pure (⟨LineTag.DELETE, some (op.i1 + k + 1), none, lt, "", [], []⟩ : DiffLine)
  else if op.tag = "insert" then
    (List.range (op.j2 - op.j1)).mapM fun k => do
      let rt ← b.get? (op.j1 + k)
      pure (⟨LineTag.INSERT, none, some (op.j1 + k + 1), "", rt, [], []⟩ : DiffLine)
  else pure []

theorem emitOpcodeChecked_eq (A B : List String) (op : Opcode)
    (hila : op.i2 ≤ A.length) (hjlb : op.j2 ≤ B.length)
    (htags : (op.tag = "equal" ∧ op.i1 < op.i2 ∧ op.i2 - op.i1 = op.j2 - op.j1) ∨
       (op.tag = "replace" ∧ op.i1 < op.i2 ∧ op.j1 < op.j2) ∨
       (op.tag = "delete" ∧ op.i1 < op.i2 ∧ op.j1 = op.j2) ∨
       (op.tag = "insert" ∧ op.i1 = op.i2 ∧ op.j1 < op.j2)) :
    emitOpcodeChecked A B op = some (emitOpcode A B op) := by
  unfold emitOpcodeChecked emitOpcode
  rcases htags with ⟨ht, hlt, hsz⟩ | ⟨ht, hlt, hlt2⟩ | ⟨ht, hlt, hjeq⟩ | ⟨ht, hieq, hlt2⟩
  · rw [if_pos ht, if_pos ht]
    apply mapM_eq_map_of_some
    intro k hk
    rw [List.mem_range] at hk
    rw [get?_eq_some_getD A "" (op.i1 + k) (by omega),
      get?_eq_some_getD B "" (op.j1 + k) (by omega)]
    rfl
  · rw [if_neg (by rw [ht]; decide), if_pos ht, if_neg (by rw [ht]; decide), if_pos ht]
    rw [mapM_eq_map_of_some _ _ _ (fun k hk => by
      rw [List.mem_range] at hk
      rw [get?_eq_some_getD A "" (op.i1 + k) (by omega),
        get?_eq_some_getD B "" (op.j1 + k) (by omega)]
      rfl)]
    rw [mapM_eq_map_of_some _ _ _ (fun k hk => by
      rw [List.mem_range'_1] at hk
      rw [get?_eq_some_getD A "" (op.i1 + k) (by omega)]
      rfl)]
    rw [mapM_eq_map_of_some _ _ _ (fun k hk => by
      rw [List.mem_range'_1] at hk
      rw [get?_eq_some_getD B "" (op.j1 + k) (by omega)]
      rfl)]
    rfl
  · rw [if_neg (by rw [ht]; decide), if_neg (by rw [ht]; decide), if_pos ht,
      if_neg (by rw [ht]; decide), if_neg (by rw [ht]; decide), if_pos ht]
    apply mapM_eq_map_of_some
    intro k hk
    rw [List.mem_range] at hk
    rw [get?_eq_some_getD A "" (op.i1 + k) (by omega)]
    rfl
  · rw [if_neg (by rw [ht]; decide), if_neg (by rw [ht]; decide),
      if_neg (by rw [ht]; decide), if_pos ht, if_neg (by rw [ht]; decide),
      if_neg (by rw [ht]; decide), if_neg (by rw [ht]; decide), if_pos ht]
    apply mapM_eq_map_of_some
    intro k hk
    rw [List.mem_range] at hk
    rw [get?_eq_some_getD B "" (op.j1 + k) (by omega)]
    rfl

/-- Checked raw stream: every opcode's emission with checked reads,
concatenated. -/
def diffLinesRawChecked (A B : List String) : Option (List DiffLine) := do
  let pieces ← (getOpcodes A B).mapM (emitOpcodeChecked A B)
  pure pieces.flatten

theorem diffLinesRawChecked_eq (A B : List String) :
    diffLinesRawChecked A B = some (diffLinesRaw A B) := by
  unfold diffLinesRawChecked diffLinesRaw
  rw [mapM_eq_map_of_some (emitOpcodeChecked A B) (emitOpcode A B) _ (fun op hop => by
    have hfacts := opsChain_mem_facts A.length B.length (getOpcodes A B) 0 0 op
      (getOpcodes_chain A B) hop
    exact emitOpcodeChecked_eq A B op hfacts.1 hfacts.2.1 hfacts.2.2)]
  rw [List.flatMap_def]
  rfl

/-- Checked variant of the fold loop: the emission loop's `raw[i]` reads are
`get?` reads (the slicing in the epilogue and the all-equal branch are
Python slices, which never raise). -/
def foldLoopChecked (raw : List DiffLine) (k : Nat) :
    List Nat → Nat → List DiffLine → Option (List DiffLine)
  | [], next, acc =>
    if next < raw.length then
      pure ((acc ++ (raw.drop next).take k)
        ++ (if next + k < raw.length then [hunkLine] else []))
    else pure acc
  | idx :: rest, next, acc => do
    let lines ← (List.range' (max next (idx - k))
        (min (idx + k + 1) raw.length - max next (idx - k))).mapM fun x => raw.get? x
    foldLoopChecked raw k rest (idx + k + 1)
      ((if acc ≠ [] ∧ next < max next (idx - k) then acc ++ [hunkLine] else acc) ++ lines)

theorem foldLoopChecked_eq (raw : List DiffLine) (k : Nat) :
    ∀ (idxs : List Nat) (next : Nat) (acc : List DiffLine),
      foldLoopChecked raw k idxs next acc = some (foldLoop raw k idxs next acc) := by
  intro idxs
  induction idxs with
  | nil =>
    intro next acc
    simp only [foldLoopChecked, foldLoop]
    split <;> rfl
  | cons idx rest ih =>
    intro next acc
    simp only [foldLoopChecked, foldLoop]
    rw [mapM_get?_slice raw (min (idx + k + 1) raw.length - max next (idx - k))
      (max next (idx - k)) (fun hc => by omega)]
    exact ih _ _

/-- Checked `fold`. -/
def foldChecked (raw : List DiffLine) (k : Nat) : Option (List DiffLine) :=
  if interestingIndices raw = [] then
    if raw.length > k * 2 then
      pure (raw.take k ++ hunkLine :: (if k = 0 then raw else raw.drop (raw.length - k)))
    else pure raw
  else foldLoopChecked raw k (interestingIndices raw) 0 []

theorem foldChecked_eq (raw : List DiffLine) (k : Nat) :
    foldChecked raw k = some (fold raw k) := by
  unfold foldChecked fold
  split
  · split <;> rfl
  · exact foldLoopChecked_eq raw k _ 0 []

/-- Checked `diff_lines`. -/
def diff_linesChecked (A B : List String) (context : Option Nat) :
    Option (List DiffLine) := do
  let raw ← diffLinesRawChecked A B
  match context with
  | none => pure raw
  | some k => foldChecked raw k

theorem diff_linesChecked_eq (A B : List String) (context : Option Nat) :
    diff_linesChecked A B context = some (diff_lines A B context) := by
  unfold diff_linesChecked diff_lines
  rw [diffLinesRawChecked_eq]
  cases context with
  | none => rfl
  | some k =>
    show foldChecked (diffLinesRaw A B) k = some (fold (diffLinesRaw A B) k)
    exact foldChecked_eq _ k

/-- The `left_changed` / `right_changed` flag array of `merge3` (index `i`
is true iff a non-equal opcode covers it). -/
def changedList (ops : List Opcode) (n : Nat) : List Bool :=
  (List.range n).map (changed ops)

theorem changedList_length (ops : List Opcode) (n : Nat) :
    (changedList ops n).length = n := by
  unfold changedList
  simp

theorem changedList_get? (ops : List Opcode) (n i : Nat) (h : i < n) :
    (changedList ops n).get? i = some (changed ops i) := by
  unfold changedList
  rw [List.get?_eq_getElem?, List.getElem?_eq_getElem (by simp [h])]
  rw [List.getElem_map, List.getElem_range]

/-- A slice of the flag array holds a true entry iff some index of the
sliced range is changed. -/
theorem changedList_slice_any (cop : List Opcode) (n : Nat) :
    ∀ (c s : Nat), (c ≠ 0 → s + c ≤ n) →
      ((((changedList cop n).drop s).take c).any id)
        = (List.range' s c).any (changed cop) := by
  intro c
  induction c with
  | zero => intro s _; rfl
  | succ c ih =>
    intro s h
    have hs : s < n := by
      have := h (by omega)
      omega
    have hlen : s < (changedList cop n).length := by
      rw [changedList_length]
      exact hs
    rw [List.drop_eq_getElem_cons hlen, List.take_succ_cons, List.range'_succ]
    rw [List.any_cons, List.any_cons]
    have hget : (changedList cop n)[s] = changed cop s := by
      unfold changedList
      rw [List.getElem_map, List.getElem_range]
    rw [hget, ih (s + 1) (fun _ => by
      have := h (by omega)
      omega)]
    rfl

/-- Checked scan loop: the flag reads of `while i < n and p(i)` as `get?`
reads (both arrays are read; Python's short-circuit reads at most these). -/
def scanWhileFuelChecked (p : Nat → Option Bool) (n : Nat) :
    Nat → Nat → Option Nat
  | 0, i => pure i
  | fuel + 1, i =>
    if i < n then
      (p i).bind fun b =>
        if b then scanWhileFuelChecked p n fuel (i + 1) else pure i
    else pure i

theorem scanWhileFuelChecked_eq (p : Nat → Option Bool) (q : Nat → Bool) (n : Nat)
    (h : ∀ x, x < n → p x = some (q x)) :
    ∀ fuel i, scanWhileFuelChecked p n fuel i = some (scanWhileFuel q n fuel i) := by
  intro fuel
  induction fuel with
  | zero => intro i; rfl
  | succ f ih =>
    intro i
    simp only [scanWhileFuelChecked, scanWhileFuel]
    by_cases hin : i < n
    · rw [if_pos hin, if_pos hin, h i hin]
      by_cases hq : q i = true
      · rw [show (some (q i)).bind (fun b =>
            if b = true then scanWhileFuelChecked p n f (i + 1) else pure i)
            = (if q i = true then scanWhileFuelChecked p n f (i + 1) else pure i)
            from rfl]
        rw [if_pos hq, if_pos hq]
        exact ih (i + 1)
      · rw [show (some (q i)).bind (fun b =>
            if b = true then scanWhileFuelChecked p n f (i + 1) else pure i)
            = (if q i = true then scanWhileFuelChecked p n f (i + 1) else pure i)
            from rfl]
        rw [if_neg hq, if_neg hq]
        rfl
    · rw [if_neg hin, if_neg hin]
      rfl

/-- Checked replacement-walk: the `target_lines[j1 + offset + k]` reads of
the equal branch as `get?` reads. -/
def findReplGoChecked (target : List String) (start stop : Nat) :
    List Opcode → List (Nat × Nat) → List String → Option (List String)
  | [], _, res => pure res
  | op :: rest, covered, res =>
    if op.i2 ≤ start ∨ stop ≤ op.i1 then
      findReplGoChecked target start stop rest covered res
    else if op.tag = "equal" then
      ((List.range (min op.i2 stop - max op.i1 start)).mapM fun k =>
          target.get? (op.j1 + (max op.i1 start - op.i1) + k)).bind fun seg =>
        findReplGoChecked target start stop rest covered (res ++ seg)
    else if (op.i1, op.i2) ∈ covered then
      findReplGoChecked target start stop rest covered res
    else
      findReplGoChecked target start stop rest ((op.i1, op.i2) :: covered)
        (res ++ sliceList target op.j1 op.j2)

theorem findReplGoChecked_eq (target : List String) (start stop : Nat) :
    ∀ (ops : List Opcode),
      (∀ op ∈ ops, op.tag = "equal" →
        op.i1 ≤ op.i2 ∧ op.j1 ≤ op.j2 ∧ op.i2 - op.i1 = op.j2 - op.j1 ∧
        op.j2 ≤ target.length) →
      ∀ covered res, findReplGoChecked target start stop ops covered res
        = some (findReplGo target start stop ops covered res) := by
  intro ops
  induction ops with
  | nil => intro _ covered res; rfl
  | cons op rest ih =>
    intro hfacts covered res
    have hrest : ∀ o ∈ rest, o.tag = "equal" →
        o.i1 ≤ o.i2 ∧ o.j1 ≤ o.j2 ∧ o.i2 - o.i1 = o.j2 - o.j1 ∧
        o.j2 ≤ target.length :=
      fun o ho => hfacts o (List.mem_cons_of_mem op ho)
    simp only [findReplGoChecked, findReplGo]
    by_cases hskip : op.i2 ≤ start ∨ stop ≤ op.i1
    · rw [if_pos hskip, if_pos hskip]
      exact ih hrest covered res
    · rw [if_neg hskip, if_neg hskip]
      by_cases heq : op.tag = "equal"
      · rw [if_pos heq, if_pos heq]
        obtain ⟨h1, h2, h3, h4⟩ := hfacts op (by simp) heq
        rw [mapM_eq_map_of_some _
          (fun k => target.getD (op.j1 + (max op.i1 start - op.i1) + k) "") _
          (fun k hk => by
            rw [List.mem_range] at hk
            exact get?_eq_some_getD target "" _ (by omega))]
        exact ih hrest covered _
      · rw [if_neg heq, if_neg heq]
        by_cases hcov : (op.i1, op.i2) ∈ covered
        · rw [if_pos hcov, if_pos hcov]
          exact ih hrest covered res
        · rw [if_neg hcov, if_neg hcov]
          exact ih hrest _ _

/-- Checked `_find_replacement`: the `changed_flags[k]` reads of the
`any(...)` guard and the target reads of the walk. -/
def _find_replacementChecked (ops : List Opcode) (start stop : Nat)
    (flags : List Bool) (base_lines target_lines : List String) :
    Option (List String) :=
  ((List.range' start (stop - start)).mapM fun x => flags.get? x).bind fun fs =>
    if fs.any id then findReplGoChecked target_lines start stop ops [] []
    else pure (sliceList base_lines start stop)

theorem _find_replacementChecked_eq (ops : List Opcode) (start stop : Nat)
    (cop : List Opcode) (n : Nat) (base_lines target_lines : List String)
    (hstop : stop ≤ n)
    (hfacts : ∀ op ∈ ops, op.tag = "equal" →
      op.i1 ≤ op.i2 ∧ op.j1 ≤ op.j2 ∧ op.i2 - op.i1 = op.j2 - op.j1 ∧
      op.j2 ≤ target_lines.length) :
    _find_replacementChecked ops start stop (changedList cop n) base_lines target_lines
      = some (_find_replacement ops start stop (changed cop) base_lines target_lines) := by
  unfold _find_replacementChecked _find_replacement
  rw [mapM_get?_slice (changedList cop n) (stop - start) start (fun hc => by
    rw [changedList_length]
    omega)]
  rw [show ((some ((((changedList cop n).drop start)).take (stop - start))).bind
      (fun fs => if fs.any id then findReplGoChecked target_lines start stop ops [] []
        else pure (sliceList base_lines start stop)))
      = (if ((((changedList cop n).drop start)).take (stop - start)).any id then
          findReplGoChecked target_lines start stop ops [] []
        else pure (sliceList base_lines start stop)) from rfl]
  rw [changedList_slice_any cop n (stop - start) start (fun _ => by omega)]
  by_cases hany : (List.range' start (stop - start)).any (changed cop) = true
  · rw [if_pos hany, if_pos hany]
    exact findReplGoChecked_eq target_lines start stop ops hfacts [] []
  · rw [if_neg hany, if_neg hany]
    rfl

/-- Checked walk of `merge3`: flag reads of the branch conditions and the
scan loops, and the reads inside `_find_replacement`, as `get?` reads. -/
def merge3WalkFuelChecked (base_lines left_lines right_lines : List String)
    (lops rops : List Opcode) (cl cr : List Bool) :
    Nat → Nat → Option (List MergeChunk)
  | 0, _ => pure []
  | fuel + 1, i =>
    if i < base_lines.length then
      (cl.get? i).bind fun li =>
      (cr.get? i).bind fun ri =>
      if li = false ∧ ri = false then
        (scanWhileFuelChecked
            (fun x => (cl.get? x).bind fun a => (cr.get? x).bind fun b =>
              pure (!a && !b))
            base_lines.length (base_lines.length - i) i).bind fun j =>
        (merge3WalkFuelChecked base_lines left_lines right_lines lops rops cl cr
            fuel j).bind fun rest =>
        pure (⟨MergeTag.RESOLVED, sliceList base_lines i j, sliceList base_lines i j,
          sliceList base_lines i j, sliceList base_lines i j⟩ :: rest)
      else
        (scanWhileFuelChecked
            (fun x => (cl.get? x).bind fun a => (cr.get? x).bind fun b =>
              pure (a || b))
            base_lines.length (base_lines.length - i) i).bind fun j =>
        (_find_replacementChecked lops i j cl base_lines left_lines).bind fun lr =>
        (_find_replacementChecked rops i j cr base_lines right_lines).bind fun rr =>
        (merge3WalkFuelChecked base_lines left_lines right_lines lops rops cl cr
            fuel j).bind fun rest =>
        pure ((if lr = rr then
            ⟨MergeTag.RESOLVED, sliceList base_lines i j, lr, rr, lr⟩
          else if lr = sliceList base_lines i j then
            ⟨MergeTag.RESOLVED, sliceList base_lines i j, lr, rr, rr⟩
          else if rr = sliceList base_lines i j then
            ⟨MergeTag.RESOLVED, sliceList base_lines i j, lr, rr, lr⟩
          else ⟨MergeTag.CONFLICT, sliceList base_lines i j, lr, rr, []⟩) :: rest)
    else pure []

theorem merge3WalkFuelChecked_eq (base_lines left_lines right_lines : List String)
    (lops rops : List Opcode)
    (hlf : ∀ op ∈ lops, op.tag = "equal" →
      op.i1 ≤ op.i2 ∧ op.j1 ≤ op.j2 ∧ op.i2 - op.i1 = op.j2 - op.j1 ∧
      op.j2 ≤ left_lines.length)
    (hrf : ∀ op ∈ rops, op.tag = "equal" →
      op.i1 ≤ op.i2 ∧ op.j1 ≤ op.j2 ∧ op.i2 - op.i1 = op.j2 - op.j1 ∧
      op.j2 ≤ right_lines.length) :
    ∀ fuel i, i ≤ base_lines.length →
      merge3WalkFuelChecked base_lines left_lines right_lines lops rops
          (changedList lops base_lines.length) (changedList rops base_lines.length)
          fuel i
        = some (merge3WalkFuel base_lines left_lines right_lines lops rops fuel i) := by
  intro fuel
  induction fuel with
  | zero => intro i _; rfl
  | succ f ih =>
    intro i hi
    set n := base_lines.length with hn
    simp only [merge3WalkFuelChecked, merge3WalkFuel]
    by_cases hin : i < n
    · rw [if_pos hin, if_pos hin]
      rw [changedList_get? lops n i hin, changedList_get? rops n i hin]
      have hpeq : ∀ x, x < n →
          ((changedList lops n).get? x).bind (fun a =>
            ((changedList rops n).get? x).bind fun b => pure (!a && !b))
          = some (!(changed lops x) && !(changed rops x)) := by
        intro x hx
        rw [changedList_get? lops n x hx, changedList_get? rops n x hx]
        rfl
      have hpor : ∀ x, x < n →
          ((changedList lops n).get? x).bind (fun a =>
            ((changedList rops n).get? x).bind fun b => pure (a || b))
          = some (changed lops x || changed rops x) := by
        intro x hx
        rw [changedList_get? lops n x hx, changedList_get? rops n x hx]
        rfl
      simp only [Option.some_bind]
      by_cases hch : changed lops i = false ∧ changed rops i = false
      · rw [if_pos hch, if_pos hch]
        rw [show scanWhile n (fun x => !(changed lops x) && !(changed rops x)) i
            = scanWhileFuel (fun x => !(changed lops x) && !(changed rops x)) n (n - i) i
            from rfl]
        rw [scanWhileFuelChecked_eq _ (fun x => !(changed lops x) && !(changed rops x))
          n hpeq (n - i) i]
        simp only [Option.some_bind]
        have hj : scanWhileFuel (fun x => !(changed lops x) && !(changed rops x))
            n (n - i) i ≤ n :=
          scanWhileFuel_le _ n (n - i) i hi
        rw [ih _ hj]
        rfl
      · rw [if_neg hch, if_neg hch]
        rw [show scanWhile n (fun x => changed lops x || changed rops x) i
            = scanWhileFuel (fun x => changed lops x || changed rops x) n (n - i) i
            from rfl]
        rw [scanWhileFuelChecked_eq _ (fun x => changed lops x || changed rops x)
          n hpor (n - i) i]
        simp only [Option.some_bind]
        have hj : scanWhileFuel (fun x => changed lops x || changed rops x)
            n (n - i) i ≤ n :=
          scanWhileFuel_le _ n (n - i) i hi
        rw [_find_replacementChecked_eq lops i _ lops n base_lines left_lines hj hlf]
        simp only [Option.some_bind]
        rw [_find_replacementChecked_eq rops i _ rops n base_lines right_lines hj hrf]
        simp only [Option.some_bind]
        rw [ih _ hj]
        rfl
    · rw [if_neg hin, if_neg hin]
      rfl

/-- Checked `merge3`. -/
def merge3Checked (base_lines left_lines right_lines : List String) :
    Option (List MergeChunk) :=
  (merge3WalkFuelChecked base_lines left_lines right_lines
      (getOpcodes base_lines left_lines) (getOpcodes base_lines right_lines)
      (changedList (getOpcodes base_lines left_lines) base_lines.length)
      (changedList (getOpcodes base_lines right_lines) base_lines.length)
      (base_lines.length - 0) 0).bind fun walk =>
  pure (walk
    ++ (opMap (getOpcodes base_lines left_lines) left_lines).filterMap (fun e =>
        if base_lines.length ≤ e.1.1 ∧ e.2 ≠ [] then
          some ⟨MergeTag.RESOLVED, [], e.2, [], e.2⟩
        else none)
    ++ (opMap (getOpcodes base_lines right_lines) right_lines).filterMap (fun e =>
        if base_lines.length ≤ e.1.1 ∧ e.2 ≠ [] then
          some ⟨MergeTag.RESOLVED, [], [], e.2, e.2⟩
        else none))

theorem opsChain_equal_facts (la lb : Nat) (ops : List Opcode) (i j : Nat)
    (h : opsChain la lb i j ops) :
    ∀ op ∈ ops, op.tag = "equal" →
      op.i1 ≤ op.i2 ∧ op.j1 ≤ op.j2 ∧ op.i2 - op.i1 = op.j2 - op.j1 ∧ op.j2 ≤ lb := by
  intro op hop htag
  have hfacts := opsChain_mem_facts la lb ops i j op h hop
  rcases hfacts.2.2 with ⟨_, hlt, hsz⟩ | ⟨ht, _, _⟩ | ⟨ht, _, _⟩ | ⟨ht, _, _⟩
  · exact ⟨by omega, by omega, hsz, hfacts.2.1⟩
  · rw [htag] at ht; exact absurd ht (by decide)
  · rw [htag] at ht; exact absurd ht (by decide)
  · rw [htag] at ht; exact absurd ht (by decide)

theorem merge3Checked_eq (base_lines left_lines right_lines : List String) :
    merge3Checked base_lines left_lines right_lines
      = some (merge3 base_lines left_lines right_lines) := by
  unfold merge3Checked merge3
  rw [merge3WalkFuelChecked_eq base_lines left_lines right_lines _ _
    (opsChain_equal_facts base_lines.length left_lines.length _ 0 0
      (getOpcodes_chain base_lines left_lines))
    (opsChain_equal_facts base_lines.length right_lines.length _ 0 0
      (getOpcodes_chain base_lines right_lines))
    (base_lines.length - 0) 0 (by omega)]
  rfl

/-- C9: `diff_lines` and `merge3` are total over their declared input
types: for every finite line sequences (empty included) and every context
(`None` or any natural number, 0 included), the checked variants — in which
every sequence subscript performed by the source is a failing read — succeed
and return exactly the (well-formed) result of the total embedding, so no
call raises an index error. -/
theorem engine_total (A B : List String) (ctx : Option Nat)
    (base_lines left_lines right_lines : List String) :
    diff_linesChecked A B ctx = some (diff_lines A B ctx) ∧
    merge3Checked base_lines left_lines right_lines
      = some (merge3 base_lines left_lines right_lines) :=
  ⟨diff_linesChecked_eq A B ctx, merge3Checked_eq base_lines left_lines right_lines⟩

-- ═══════════════════════════════════════════════════════════════════════
-- C4 (amended): idempotence of context folding for context ≥ 1
-- ═══════════════════════════════════════════════════════════════════════

/-- Whether the record at index `i` of a stream is non-`EQUAL` (the
membership test of `interesting_indices`). -/
def lineInteresting (raw : List DiffLine) (i : Nat) : Bool :=
  decide ((raw.getD i hunkLine).tag ≠ LineTag.EQUAL)

theorem interestingIndices_eq_filter (raw : List DiffLine) :
    interestingIndices raw = (List.range raw.length).filter (lineInteresting raw) := rfl

theorem mem_interestingIndices (raw : List DiffLine) (i : Nat) :
    i ∈ interestingIndices raw ↔ i < raw.length ∧ lineInteresting raw i = true := by
  rw [interestingIndices_eq_filter, List.mem_filter, List.mem_range]

theorem interestingIndices_pairwise (raw : List DiffLine) :
    (interestingIndices raw).Pairwise (· < ·) := by
  rw [interestingIndices_eq_filter]
  exact (List.pairwise_lt_range _).filter _

theorem lineInteresting_append_left (u v : List DiffLine) (i : Nat) (h : i < u.length) :
    lineInteresting (u ++ v) i = lineInteresting u i := by
  unfold lineInteresting
  rw [List.getD_append u v hunkLine i h]

theorem lineInteresting_append_right (u v : List DiffLine) (i : Nat) :
    lineInteresting (u ++ v) (u.length + i) = lineInteresting v i := by
  unfold lineInteresting
  rw [List.getD_append_right u v hunkLine _ (by omega)]
  have h : u.length + i - u.length = i := by omega
  rw [h]

theorem interestingIndices_append (u v : List DiffLine) :
    interestingIndices (u ++ v)
      = interestingIndices u ++ (interestingIndices v).map (u.length + ·) := by
  rw [interestingIndices_eq_filter, interestingIndices_eq_filter,
    interestingIndices_eq_filter, List.length_append, List.range_add,
    List.filter_append, List.filter_map]
  congr 1
  · exact List.filter_congr fun i hi =>
      lineInteresting_append_left u v i (List.mem_range.mp hi)
  · congr 1
    exact List.filter_congr fun i _ => lineInteresting_append_right u v i

theorem interestingIndices_hunk : interestingIndices [hunkLine] = [0] := by decide

theorem interestingIndices_slice (y : List DiffLine) (s c : Nat) (h : s + c ≤ y.length) :
    interestingIndices ((y.drop s).take c)
      = (List.range c).filter fun m => lineInteresting y (s + m) := by
  have hlen : ((y.drop s).take c).length = c := by
    rw [List.length_take, List.length_drop]
    omega
  rw [interestingIndices_eq_filter, hlen]
  apply List.filter_congr
  intro m hm
  rw [List.mem_range] at hm
  unfold lineInteresting
  have h1 : m < ((y.drop s).take c).length := by rw [hlen]; exact hm
  have h2 : s + m < y.length := by omega
  rw [List.getD_eq_getElem?_getD, List.getElem?_eq_getElem h1,
      List.getD_eq_getElem?_getD, List.getElem?_eq_getElem h2]
  simp only [List.getElem_take, List.getElem_drop]

theorem filter_range_nil (p : Nat → Bool) (c : Nat) (h : ∀ m < c, p m = false) :
    (List.range c).filter p = [] := by
  rw [List.filter_eq_nil_iff]
  intro a ha
  rw [List.mem_range] at ha
  simp [h a ha]

theorem mem_filter_range (p : Nat → Bool) (c m : Nat) :
    m ∈ (List.range c).filter p ↔ m < c ∧ p m = true := by
  rw [List.mem_filter, List.mem_range]

theorem filter_range_head (p : Nat → Bool) (m0 : Nat) (hp : p m0 = true)
    (hbelow : ∀ m < m0, p m = false) :
    ∀ c, m0 < c → ((List.range c).filter p).head? = some m0 := by
  intro c
  induction c with
  | zero => omega
  | succ n ih =>
    intro hm0
    rw [List.range_succ, List.filter_append]
    rcases Nat.lt_or_ge m0 n with h | h
    · rw [List.head?_append, ih h]
      rfl
    · have hm0n : m0 = n := by omega
      subst hm0n
      rw [filter_range_nil p m0 hbelow, List.nil_append, List.filter_singleton, hp]
      rfl

theorem filter_range_getLast (p : Nat → Bool) (m1 : Nat) (hp : p m1 = true) :
    ∀ c, m1 < c → (∀ m, m1 < m → m < c → p m = false) →
      ((List.range c).filter p).getLast? = some m1 := by
  intro c
  induction c with
  | zero => omega
  | succ n ih =>
    intro hm1 habove
    rw [List.range_succ, List.filter_append]
    rcases Nat.lt_or_ge m1 n with h | h
    · have hn : List.filter p [n] = [] := by
        rw [List.filter_singleton, habove n h (by omega)]
        rfl
      rw [hn, List.append_nil]
      exact ih h (fun m hm hmn => habove m hm (by omega))
    · have hm1n : m1 = n := by omega
      subst hm1n
      have h1 : List.filter p [m1] = [m1] := by
        rw [List.filter_singleton, hp]
        rfl
      rw [h1, List.getLast?_append]
      rfl

theorem chain'_of_window (l : List Nat) (lo w g : Nat)
    (hmem : ∀ e ∈ l, lo ≤ e ∧ e < lo + w) (hwg : w ≤ g + 1) :
    List.Chain' (fun a b => b ≤ a + g) l :=
  (List.pairwise_of_forall_mem_list fun a ha b hb => by
    have h1 := hmem a ha
    have h2 := hmem b hb
    omega).chain'

/-- The greatest index `≤ b` holding a non-`EQUAL` record (0 if none). -/
def lastInteresting (x : List DiffLine) (b : Nat) : Nat :=
  Nat.findGreatest (fun i => lineInteresting x i = true) b

theorem lastInteresting_interesting (x : List DiffLine) (b i : Nat) (h1 : i ≤ b)
    (h2 : lineInteresting x i = true) :
    lineInteresting x (lastInteresting x b) = true :=
  Nat.findGreatest_spec (P := fun j => lineInteresting x j = true) h1 h2

theorem lastInteresting_max (x : List DiffLine) (b i : Nat)
    (h1 : lastInteresting x b < i) (h2 : i ≤ b) : lineInteresting x i = false := by
  have h3 := Nat.findGreatest_is_greatest
    (P := fun j => lineInteresting x j = true) h1 h2
  simpa using h3

theorem lastInteresting_stable (x : List DiffLine) (b : Nat) :
    ∀ b', b ≤ b' → (∀ i, b < i → i ≤ b' → lineInteresting x i = false) →
      lastInteresting x b' = lastInteresting x b := by
  intro b'
  induction b' with
  | zero =>
    intro hb _
    have h0 : b = 0 := by omega
    rw [h0]
  | succ n ih =>
    intro hb hnone
    rcases Nat.lt_or_ge n b with h | h
    · have h1 : b = n + 1 := by omega
      rw [h1]
    · unfold lastInteresting
      rw [Nat.findGreatest_succ]
      have h2 : ¬ (lineInteresting x (n + 1) = true) := by
        rw [hnone (n + 1) (by omega) le_rfl]
        simp
      rw [if_neg h2]
      exact ih h (fun i h1 h2 => hnone i h1 (by omega))

-- unfolding equations for foldLoop
theorem foldLoop_nil (raw : List DiffLine) (k next : Nat) (acc : List DiffLine) :
    foldLoop raw k [] next acc
      = if next < raw.length then
          (acc ++ (raw.drop next).take k)
            ++ (if next + k < raw.length then [hunkLine] else [])
        else acc := rfl

theorem foldLoop_cons (raw : List DiffLine) (k idx : Nat) (rest : List Nat)
    (next : Nat) (acc : List DiffLine) :
    foldLoop raw k (idx :: rest) next acc
      = foldLoop raw k rest (idx + k + 1)
          ((if acc ≠ [] ∧ next < max next (idx - k) then acc ++ [hunkLine] else acc)
            ++ (raw.drop (max next (idx - k))).take
                (min (idx + k + 1) raw.length - max next (idx - k))) := rfl

-- ── Lemma B: fold is the identity on streams whose interesting indices
--    already have the folded shape ──

theorem foldLoopB (y : List DiffLine) (k : Nat) :
    ∀ (rest : List Nat) (t : Nat),
      List.Chain' (· < ·) (t :: rest) →
      List.Chain' (fun a b => b ≤ a + (2 * k + 1)) (t :: rest) →
      (∀ i ∈ rest, i < y.length) →
      (∀ lz ∈ (t :: rest).getLast?, y.length ≤ lz + (2 * k + 1)) →
      foldLoop y k rest (t + k + 1) (y.take (min (t + k + 1) y.length)) = y := by
  intro rest
  induction rest with
  | nil =>
    intro t _ _ _ hlast
    have hl : y.length ≤ t + (2 * k + 1) := hlast t rfl
    rw [foldLoop_nil]
    rcases Nat.lt_or_ge (t + k + 1) y.length with h | h
    · rw [if_pos h, if_neg (by omega), List.append_nil]
      have hmin : min (t + k + 1) y.length = t + k + 1 := by omega
      rw [hmin]
      have htake : (y.drop (t + k + 1)).take k = y.drop (t + k + 1) :=
        List.take_of_length_le (by rw [List.length_drop]; omega)
      rw [htake, List.take_append_drop]
    · rw [if_neg (by omega)]
      have hmin : min (t + k + 1) y.length = y.length := by omega
      rw [hmin, List.take_length]
  | cons idx rest' ih =>
    intro t hlt hgap hmem hlast
    have h1 : t < idx := (List.chain'_cons.mp hlt).1
    have h2 : idx ≤ t + (2 * k + 1) := (List.chain'_cons.mp hgap).1
    rw [foldLoop_cons]
    have hstart : max (t + k + 1) (idx - k) = t + k + 1 := by omega
    rw [hstart, if_neg (by simp)]
    have hacc : y.take (min (t + k + 1) y.length)
        ++ (y.drop (t + k + 1)).take (min (idx + k + 1) y.length - (t + k + 1))
        = y.take (min (idx + k + 1) y.length) := by
      rcases Nat.lt_or_ge (t + k + 1) y.length with h | h
      · have hm1 : min (t + k + 1) y.length = t + k + 1 := by omega
        have hm2 : min (idx + k + 1) y.length
            = (t + k + 1) + (min (idx + k + 1) y.length - (t + k + 1)) := by omega
        rw [hm1]
        conv_rhs => rw [hm2, List.take_add]
      · have hm1 : min (t + k + 1) y.length = y.length := by omega
        have hm2 : min (idx + k + 1) y.length = y.length := by omega
        have hc : min (idx + k + 1) y.length - (t + k + 1) = 0 := by omega
        rw [hm1, hc, List.take_zero, List.append_nil, hm2, List.take_length]
    rw [hacc]
    exact ih idx (List.chain'_cons.mp hlt).2 (List.chain'_cons.mp hgap).2
      (fun i hi => hmem i (List.mem_cons_of_mem idx hi))
      (fun lz hz => hlast lz (by rw [List.getLast?_cons_cons]; exact hz))

theorem fold_of_P (y : List DiffLine) (k : Nat)
    (h1 : interestingIndices y = [] → y.length ≤ 2 * k)
    (h2 : ∀ i0 ∈ (interestingIndices y).head?, i0 ≤ k)
    (h3 : List.Chain' (fun a b => b ≤ a + (2 * k + 1)) (interestingIndices y))
    (h4 : ∀ lz ∈ (interestingIndices y).getLast?, y.length ≤ lz + (2 * k + 1)) :
    fold y k = y := by
  unfold fold
  cases hI : interestingIndices y with
  | nil =>
    rw [if_pos rfl, if_neg (by have := h1 hI; omega)]
  | cons i0 rest =>
    rw [if_neg (by simp)]
    have hi0 : i0 ≤ k := by
      apply h2
      rw [hI]
      rfl
    have hmem : ∀ i ∈ interestingIndices y, i < y.length :=
      fun i hi => ((mem_interestingIndices y i).mp hi).1
    have hi0len : i0 < y.length := by
      apply hmem
      rw [hI]
      exact List.mem_cons_self i0 rest
    rw [foldLoop_cons]
    have hstart : max 0 (i0 - k) = 0 := by omega
    rw [hstart, if_neg (by simp)]
    have hacc : (y.drop 0).take (min (i0 + k + 1) y.length - 0)
        = y.take (min (i0 + k + 1) y.length) := by
      rw [List.drop_zero, Nat.sub_zero]
    rw [List.nil_append, hacc]
    have hpw : (i0 :: rest).Pairwise (· < ·) := by
      rw [← hI]
      exact interestingIndices_pairwise y
    apply foldLoopB y k rest i0
    · exact List.chain'_iff_pairwise.mpr hpw
    · rw [← hI]
      exact h3
    · intro i hi
      apply hmem
      rw [hI]
      exact List.mem_cons_of_mem i0 hi
    · intro lz hz
      apply h4
      rw [hI]
      exact hz

-- ── Lemma A: the output of fold has the folded shape ──

theorem eq_of_mem_some {α : Type _} {a b : α} (h : a ∈ some b) : a = b :=
  (Option.some.inj (Option.mem_def.mp h)).symm

theorem head?_append_of_ne_nil {α : Type _} (J N : List α) (h : J ≠ []) :
    (J ++ N).head? = J.head? := by
  obtain ⟨a, J', rfl⟩ := List.exists_cons_of_ne_nil h
  rfl

theorem getLast?_append_of_ne_nil {α : Type _} (J N : List α) (h : N ≠ []) :
    (J ++ N).getLast? = N.getLast? := by
  rw [List.getLast?_append]
  obtain ⟨b, hb⟩ := Option.isSome_iff_exists.mp (List.getLast?_isSome.mpr h)
  rw [hb]
  rfl

theorem interestingIndices_concat_hunk (acc : List DiffLine) :
    interestingIndices (acc ++ [hunkLine]) = interestingIndices acc ++ [acc.length] := by
  rw [interestingIndices_append, interestingIndices_hunk]
  simp

theorem mem_window (p : Nat → Bool) (c base e : Nat)
    (h : e ∈ ((List.range c).filter p).map (base + ·)) : base ≤ e ∧ e < base + c := by
  obtain ⟨mm, hmm, rfl⟩ := List.mem_map.mp h
  have h2 := (mem_filter_range p c mm).mp hmm
  omega

/-- The accumulator update of one iteration of the folding loop. -/
def foldStepAcc (raw : List DiffLine) (k idx next : Nat) (acc : List DiffLine) :
    List DiffLine :=
  (if acc ≠ [] ∧ next < max next (idx - k) then acc ++ [hunkLine] else acc)
    ++ (raw.drop (max next (idx - k))).take
        (min (idx + k + 1) raw.length - max next (idx - k))

theorem foldLoop_cons2 (raw : List DiffLine) (k idx : Nat) (rest : List Nat)
    (next : Nat) (acc : List DiffLine) :
    foldLoop raw k (idx :: rest) next acc
      = foldLoop raw k rest (idx + k + 1) (foldStepAcc raw k idx next acc) := rfl

/-- Invariant of the folding loop: the interesting indices of the
accumulated output are nonempty, start within the first `k + 1` positions,
have consecutive gaps at most `2k + 1`, and the last one mirrors the last
interesting raw index below `nr = min (t + k + 1) |x|`, the first raw
index not yet emitted (`t` is the last processed interesting raw index). -/
def foldInv (x : List DiffLine) (k t : Nat) (acc : List DiffLine) : Prop :=
  interestingIndices acc ≠ [] ∧
  (∀ h0 ∈ (interestingIndices acc).head?, h0 ≤ k) ∧
  List.Chain' (fun a b => b ≤ a + (2 * k + 1)) (interestingIndices acc) ∧
  (interestingIndices acc).getLast?
    = some (acc.length + lastInteresting x (min (t + k + 1) x.length - 1)
        - min (t + k + 1) x.length) ∧
  min (t + k + 1) x.length
    ≤ acc.length + lastInteresting x (min (t + k + 1) x.length - 1)

/-- The folded shape of a finished stream: either everything is equal and
short, or the interesting indices start within `k`, have gaps at most
`2k + 1`, and the stream ends at most `2k + 1` past the last one. -/
def foldShape (k : Nat) (z : List DiffLine) : Prop :=
  (interestingIndices z = [] → z.length ≤ 2 * k) ∧
  (∀ h0 ∈ (interestingIndices z).head?, h0 ≤ k) ∧
  List.Chain' (fun a b => b ≤ a + (2 * k + 1)) (interestingIndices z) ∧
  (∀ lz ∈ (interestingIndices z).getLast?, z.length ≤ lz + (2 * k + 1))

theorem foldStep_inv (x : List DiffLine) (k : Nat) (hk : 1 ≤ k) (t idx : Nat)
    (acc : List DiffLine)
    (ht : t < x.length) (hpt : lineInteresting x t = true)
    (hti : t < idx) (hilen : idx < x.length) (hpi : lineInteresting x idx = true)
    (hnone : ∀ i, t < i → i < idx → lineInteresting x i = false)
    (hinv : foldInv x k t acc) :
    foldInv x k idx (foldStepAcc x k idx (t + k + 1) acc) := by
  obtain ⟨hne, hhead, hchain, hlast, hcoh⟩ := hinv
  have haccne : acc ≠ [] := by
    intro h
    rw [h] at hne
    exact hne rfl
  have hnr_ge : t + 1 ≤ min (t + k + 1) x.length := by omega
  have hr_le : lastInteresting x (min (t + k + 1) x.length - 1)
      ≤ min (t + k + 1) x.length - 1 := Nat.findGreatest_le _
  have htr : t ≤ lastInteresting x (min (t + k + 1) x.length - 1) :=
    Nat.le_findGreatest (by omega) hpt
  have hstop_ge : idx + 1 ≤ min (idx + k + 1) x.length := by omega
  have hr'_le : lastInteresting x (min (idx + k + 1) x.length - 1)
      ≤ min (idx + k + 1) x.length - 1 := Nat.findGreatest_le _
  have hir' : idx ≤ lastInteresting x (min (idx + k + 1) x.length - 1) :=
    Nat.le_findGreatest (by omega) hpi
  have hpr' : lineInteresting x (lastInteresting x (min (idx + k + 1) x.length - 1))
      = true := lastInteresting_interesting x _ idx (by omega) hpi
  have hr'max : ∀ i, lastInteresting x (min (idx + k + 1) x.length - 1) < i →
      i ≤ min (idx + k + 1) x.length - 1 → lineInteresting x i = false :=
    fun i h1 h2 => lastInteresting_max x _ i h1 h2
  rcases Nat.lt_or_ge (t + k + 1) (max (t + k + 1) (idx - k)) with hcase | hcase
  · -- separator case: the window starts at idx - k, past the covered part
    have hstart : max (t + k + 1) (idx - k) = idx - k := by omega
    have hidxk : t + k + 1 < idx - k := by omega
    have haccd : foldStepAcc x k idx (t + k + 1) acc
        = (acc ++ [hunkLine])
          ++ (x.drop (idx - k)).take (min (idx + k + 1) x.length - (idx - k)) := by
      unfold foldStepAcc
      rw [hstart, if_pos ⟨haccne, hidxk⟩]
    have hsc : (idx - k) + (min (idx + k + 1) x.length - (idx - k)) ≤ x.length := by
      omega
    have hslice := interestingIndices_slice x (idx - k)
      (min (idx + k + 1) x.length - (idx - k)) hsc
    have hml : (acc ++ [hunkLine]).length = acc.length + 1 := by simp
    have hJ2 : interestingIndices (foldStepAcc x k idx (t + k + 1) acc)
        = (interestingIndices acc ++ [acc.length])
          ++ ((List.range (min (idx + k + 1) x.length - (idx - k))).filter
                (fun m => lineInteresting x (idx - k + m))).map (acc.length + 1 + ·) := by
      rw [haccd, interestingIndices_append, interestingIndices_concat_hunk, hslice, hml]
    have hlen2 : (foldStepAcc x k idx (t + k + 1) acc).length
        = acc.length + 1 + (min (idx + k + 1) x.length - (idx - k)) := by
      rw [haccd]
      simp only [List.length_append, List.length_take, List.length_drop,
        List.length_cons, List.length_nil]
      omega
    have hkidx : idx - k + k = idx := by omega
    have hWmem : k ∈ (List.range (min (idx + k + 1) x.length - (idx - k))).filter
        (fun m => lineInteresting x (idx - k + m)) := by
      rw [mem_filter_range]
      refine ⟨by omega, ?_⟩
      rw [hkidx]
      exact hpi
    have hWne : ((List.range (min (idx + k + 1) x.length - (idx - k))).filter
        (fun m => lineInteresting x (idx - k + m))) ≠ [] :=
      List.ne_nil_of_mem hWmem
    have hpX : lineInteresting x (idx - k
        + (lastInteresting x (min (idx + k + 1) x.length - 1) - (idx - k))) = true := by
      have he : idx - k + (lastInteresting x (min (idx + k + 1) x.length - 1) - (idx - k))
          = lastInteresting x (min (idx + k + 1) x.length - 1) := by omega
      rw [he]
      exact hpr'
    have hWlast : (((List.range (min (idx + k + 1) x.length - (idx - k))).filter
        (fun m => lineInteresting x (idx - k + m)))).getLast?
        = some (lastInteresting x (min (idx + k + 1) x.length - 1) - (idx - k)) :=
      filter_range_getLast (fun m => lineInteresting x (idx - k + m))
        (lastInteresting x (min (idx + k + 1) x.length - 1) - (idx - k)) hpX
        (min (idx + k + 1) x.length - (idx - k)) (by omega)
        (fun m h1 h2 => hr'max _ (by omega) (by omega))
    unfold foldInv
    rw [hJ2, hlen2]
    refine ⟨?_, ?_, ?_, ?_, ?_⟩
    · intro h
      rcases List.append_eq_nil.mp h with ⟨h1, _⟩
      rcases List.append_eq_nil.mp h1 with ⟨_, h2⟩
      exact absurd h2 (by simp)
    · rw [head?_append_of_ne_nil _ _
        (fun h => hne (List.append_eq_nil.mp h).1), head?_append_of_ne_nil _ _ hne]
      exact hhead
    · apply List.chain'_append.mpr
      refine ⟨?_, ?_, ?_⟩
      · apply List.chain'_append.mpr
        refine ⟨hchain, List.chain'_singleton _, ?_⟩
        intro a ha b hb
        have hb2 : b = acc.length := eq_of_mem_some hb
        rw [hlast] at ha
        have ha2 := eq_of_mem_some ha
        omega
      · exact chain'_of_window _ (acc.length + 1)
          (min (idx + k + 1) x.length - (idx - k)) _
          (fun e he => mem_window _ _ _ _ he) (by omega)
      · intro a ha b hb
        rw [getLast?_append_of_ne_nil _ _ (by simp)] at ha
        have ha2 : a = acc.length := eq_of_mem_some ha
        have hb2 := mem_window _ _ _ _ (List.mem_of_mem_head? hb)
        omega
    · rw [getLast?_append_of_ne_nil _ _ (fun h => hWne (List.map_eq_nil_iff.mp h)),
        List.getLast?_map, hWlast, Option.map_some']
      rw [Option.some.injEq]
      omega
    · omega
  · -- the window starts at the first uncovered index: no separator
    have hstart : max (t + k + 1) (idx - k) = t + k + 1 := by omega
    have hidxle : idx ≤ t + 2 * k + 1 := by omega
    have haccd : foldStepAcc x k idx (t + k + 1) acc
        = acc ++ (x.drop (t + k + 1)).take
            (min (idx + k + 1) x.length - (t + k + 1)) := by
      unfold foldStepAcc
      rw [hstart, if_neg (by simp)]
    rcases Nat.lt_or_ge (t + k + 1) (min (idx + k + 1) x.length) with hlt | hge
    · -- the window extends past the covered part: a nonempty slice is emitted
      have hnextlen : t + k + 1 < x.length := by omega
      have hsc : (t + k + 1) + (min (idx + k + 1) x.length - (t + k + 1))
          ≤ x.length := by omega
      have hslice := interestingIndices_slice x (t + k + 1)
        (min (idx + k + 1) x.length - (t + k + 1)) hsc
      have hJ2 : interestingIndices (foldStepAcc x k idx (t + k + 1) acc)
          = interestingIndices acc
            ++ ((List.range (min (idx + k + 1) x.length - (t + k + 1))).filter
                  (fun m => lineInteresting x (t + k + 1 + m))).map (acc.length + ·) := by
        rw [haccd, interestingIndices_append, hslice]
      have hlen2 : (foldStepAcc x k idx (t + k + 1) acc).length
          = acc.length + (min (idx + k + 1) x.length - (t + k + 1)) := by
        rw [haccd]
        simp only [List.length_append, List.length_take, List.length_drop]
        omega
      rcases Nat.lt_or_ge idx (t + k + 1) with hext | hnb
      · -- extension: idx was already covered by the previous window
        have hir : idx ≤ lastInteresting x (min (t + k + 1) x.length - 1) :=
          Nat.le_findGreatest (by omega) hpi
        by_cases hW : ((List.range (min (idx + k + 1) x.length - (t + k + 1))).filter
            (fun m => lineInteresting x (t + k + 1 + m))) = []
        · -- no interesting record in the extension: indices unchanged
          have hstab : lastInteresting x (min (idx + k + 1) x.length - 1)
              = lastInteresting x (min (t + k + 1) x.length - 1) := by
            apply lastInteresting_stable x (min (t + k + 1) x.length - 1) _ (by omega)
            intro i h1 h2
            have hm := List.filter_eq_nil_iff.mp hW (i - (t + k + 1))
              (List.mem_range.mpr (by omega))
            have he : t + k + 1 + (i - (t + k + 1)) = i := by omega
            rw [he] at hm
            cases hb : lineInteresting x i
            · rfl
            · rw [hb] at hm
              exact absurd rfl hm
          unfold foldInv
          rw [hJ2, hlen2, hW]
          simp only [List.map_nil, List.append_nil]
          refine ⟨hne, hhead, hchain, ?_, ?_⟩
          · rw [hlast, Option.some.injEq, hstab]
            omega
          · rw [hstab]
            omega
        · -- the emitted extension contains a later interesting record
          obtain ⟨mm, hmm⟩ := List.exists_mem_of_ne_nil _ hW
          have hmm2 := (mem_filter_range _ _ _).mp hmm
          have hrnext : t + k + 1
              ≤ lastInteresting x (min (idx + k + 1) x.length - 1) := by
            have h1 : t + k + 1 + mm
                ≤ lastInteresting x (min (idx + k + 1) x.length - 1) :=
              Nat.le_findGreatest (by omega) hmm2.2
            omega
          have hpX : lineInteresting x (t + k + 1
              + (lastInteresting x (min (idx + k + 1) x.length - 1)
                  - (t + k + 1))) = true := by
            have he : t + k + 1
                + (lastInteresting x (min (idx + k + 1) x.length - 1) - (t + k + 1))
                = lastInteresting x (min (idx + k + 1) x.length - 1) := by omega
            rw [he]
            exact hpr'
          have hWlast : (((List.range (min (idx + k + 1) x.length - (t + k + 1))).filter
              (fun m => lineInteresting x (t + k + 1 + m)))).getLast?
              = some (lastInteresting x (min (idx + k + 1) x.length - 1)
                  - (t + k + 1)) :=
            filter_range_getLast (fun m => lineInteresting x (t + k + 1 + m))
              (lastInteresting x (min (idx + k + 1) x.length - 1) - (t + k + 1)) hpX
              (min (idx + k + 1) x.length - (t + k + 1)) (by omega)
              (fun m h1 h2 => hr'max _ (by omega) (by omega))
          unfold foldInv
          rw [hJ2, hlen2]
          refine ⟨?_, ?_, ?_, ?_, ?_⟩
          · intro h
            exact hne (List.append_eq_nil.mp h).1
          · rw [head?_append_of_ne_nil _ _ hne]
            exact hhead
          · apply List.chain'_append.mpr
            refine ⟨hchain, ?_, ?_⟩
            · exact chain'_of_window _ acc.length
                (min (idx + k + 1) x.length - (t + k + 1)) _
                (fun e he => mem_window _ _ _ _ he) (by omega)
            · intro a ha b hb
              rw [hlast] at ha
              have ha2 := eq_of_mem_some ha
              have hb2 := mem_window _ _ _ _ (List.mem_of_mem_head? hb)
              omega
          · rw [getLast?_append_of_ne_nil _ _ (fun h => hW (List.map_eq_nil_iff.mp h)),
              List.getLast?_map, hWlast, Option.map_some', Option.some.injEq]
            omega
          · omega
      · -- new window: idx lies at or past the first uncovered index
        have hpm0 : lineInteresting x (t + k + 1 + (idx - (t + k + 1))) = true := by
          have he : t + k + 1 + (idx - (t + k + 1)) = idx := by omega
          rw [he]
          exact hpi
        have hbelow : ∀ m < idx - (t + k + 1),
            lineInteresting x (t + k + 1 + m) = false :=
          fun m hm => hnone _ (by omega) (by omega)
        have hWhead : (((List.range (min (idx + k + 1) x.length - (t + k + 1))).filter
            (fun m => lineInteresting x (t + k + 1 + m)))).head?
            = some (idx - (t + k + 1)) :=
          filter_range_head (fun m => lineInteresting x (t + k + 1 + m))
            (idx - (t + k + 1)) hpm0 hbelow
            (min (idx + k + 1) x.length - (t + k + 1)) (by omega)
        have hWne : (((List.range (min (idx + k + 1) x.length - (t + k + 1))).filter
            (fun m => lineInteresting x (t + k + 1 + m)))) ≠ [] := by
          intro h
          rw [h] at hWhead
          exact Option.noConfusion hWhead
        have hpX : lineInteresting x (t + k + 1
            + (lastInteresting x (min (idx + k + 1) x.length - 1)
                - (t + k + 1))) = true := by
          have he : t + k + 1
              + (lastInteresting x (min (idx + k + 1) x.length - 1) - (t + k + 1))
              = lastInteresting x (min (idx + k + 1) x.length - 1) := by omega
          rw [he]
          exact hpr'
        have hWlast : (((List.range (min (idx + k + 1) x.length - (t + k + 1))).filter
            (fun m => lineInteresting x (t + k + 1 + m)))).getLast?
            = some (lastInteresting x (min (idx + k + 1) x.length - 1)
                - (t + k + 1)) :=
          filter_range_getLast (fun m => lineInteresting x (t + k + 1 + m))
            (lastInteresting x (min (idx + k + 1) x.length - 1) - (t + k + 1)) hpX
            (min (idx + k + 1) x.length - (t + k + 1)) (by omega)
            (fun m h1 h2 => hr'max _ (by omega) (by omega))
        unfold foldInv
        rw [hJ2, hlen2]
        refine ⟨?_, ?_, ?_, ?_, ?_⟩
        · intro h
          exact hne (List.append_eq_nil.mp h).1
        · rw [head?_append_of_ne_nil _ _ hne]
          exact hhead
        · apply List.chain'_append.mpr
          refine ⟨hchain, ?_, ?_⟩
          · exact chain'_of_window _ acc.length
              (min (idx + k + 1) x.length - (t + k + 1)) _
              (fun e he => mem_window _ _ _ _ he) (by omega)
          · intro a ha b hb
            rw [hlast] at ha
            have ha2 := eq_of_mem_some ha
            rw [List.head?_map, hWhead, Option.map_some'] at hb
            have hb2 := eq_of_mem_some hb
            omega
        · rw [getLast?_append_of_ne_nil _ _ (fun h => hWne (List.map_eq_nil_iff.mp h)),
            List.getLast?_map, hWlast, Option.map_some', Option.some.injEq]
          omega
        · omega
    · -- the whole stream is already covered: nothing is emitted
      have hc0 : min (idx + k + 1) x.length - (t + k + 1) = 0 := by omega
      have hacc0 : foldStepAcc x k idx (t + k + 1) acc = acc := by
        rw [haccd, hc0, List.take_zero, List.append_nil]
      have heq : min (idx + k + 1) x.length = min (t + k + 1) x.length := by omega
      unfold foldInv
      rw [hacc0, heq]
      exact ⟨hne, hhead, hchain, hlast, hcoh⟩

theorem foldBase_shape (x : List DiffLine) (k t : Nat) (acc : List DiffLine)
    (hk : 1 ≤ k) (ht : t < x.length) (hpt : lineInteresting x t = true)
    (hnone : ∀ i, t < i → i < x.length → lineInteresting x i = false)
    (hinv : foldInv x k t acc) :
    foldShape k (foldLoop x k [] (t + k + 1) acc) := by
  obtain ⟨hne, hhead, hchain, hlast, hcoh⟩ := hinv
  have hr_le : lastInteresting x (min (t + k + 1) x.length - 1)
      ≤ min (t + k + 1) x.length - 1 := Nat.findGreatest_le _
  have htr : t ≤ lastInteresting x (min (t + k + 1) x.length - 1) :=
    Nat.le_findGreatest (by omega) hpt
  rw [foldLoop_nil]
  rcases Nat.lt_or_ge (t + k + 1) x.length with h | h
  · rw [if_pos h]
    rcases Nat.lt_or_ge (t + k + 1 + k) x.length with h2 | h2
    · rw [if_pos h2]
      have hsc : (t + k + 1) + k ≤ x.length := by omega
      have hTnil : interestingIndices ((x.drop (t + k + 1)).take k) = [] := by
        rw [interestingIndices_slice x (t + k + 1) k hsc]
        exact filter_range_nil _ _ (fun m hm => hnone _ (by omega) (by omega))
      have hJT : interestingIndices (acc ++ (x.drop (t + k + 1)).take k)
          = interestingIndices acc := by
        rw [interestingIndices_append, hTnil]
        simp
      have hlenT : (acc ++ (x.drop (t + k + 1)).take k).length = acc.length + k := by
        simp only [List.length_append, List.length_take, List.length_drop]
        omega
      have hJz : interestingIndices ((acc ++ (x.drop (t + k + 1)).take k) ++ [hunkLine])
          = interestingIndices acc ++ [acc.length + k] := by
        rw [interestingIndices_concat_hunk, hJT, hlenT]
      have hlenz : ((acc ++ (x.drop (t + k + 1)).take k) ++ [hunkLine]).length
          = acc.length + k + 1 := by
        simp only [List.length_append, List.length_take, List.length_drop,
          List.length_cons, List.length_nil]
        omega
      unfold foldShape
      rw [hJz, hlenz]
      refine ⟨?_, ?_, ?_, ?_⟩
      · intro hx
        exact absurd hx (by simp)
      · rw [head?_append_of_ne_nil _ _ hne]
        exact hhead
      · apply List.chain'_append.mpr
        refine ⟨hchain, List.chain'_singleton _, ?_⟩
        intro a ha b hb
        rw [hlast] at ha
        have ha2 := eq_of_mem_some ha
        have hb2 : b = acc.length + k := eq_of_mem_some hb
        omega
      · intro lz hz
        rw [getLast?_append_of_ne_nil _ _ (by simp)] at hz
        have hz2 : lz = acc.length + k := eq_of_mem_some hz
        omega
    · rw [if_neg (by omega), List.append_nil]
      have hT : (x.drop (t + k + 1)).take k
          = (x.drop (t + k + 1)).take (x.length - (t + k + 1)) := by
        rw [List.take_of_length_le (by rw [List.length_drop]; omega),
          List.take_of_length_le (by rw [List.length_drop])]
      have hsc : (t + k + 1) + (x.length - (t + k + 1)) ≤ x.length := by omega
      have hTnil : interestingIndices ((x.drop (t + k + 1)).take k) = [] := by
        rw [hT, interestingIndices_slice x (t + k + 1) (x.length - (t + k + 1)) hsc]
        exact filter_range_nil _ _ (fun m hm => hnone _ (by omega) (by omega))
      have hJz : interestingIndices (acc ++ (x.drop (t + k + 1)).take k)
          = interestingIndices acc := by
        rw [interestingIndices_append, hTnil]
        simp
      have hlenz : (acc ++ (x.drop (t + k + 1)).take k).length
          = acc.length + (x.length - (t + k + 1)) := by
        simp only [List.length_append, List.length_take, List.length_drop]
        omega
      unfold foldShape
      rw [hJz, hlenz]
      refine ⟨?_, ?_, ?_, ?_⟩
      · intro hx
        exact absurd hx hne
      · exact hhead
      · exact hchain
      · intro lz hz
        rw [hlast] at hz
        have hz2 := eq_of_mem_some hz
        omega
  · rw [if_neg (by omega)]
    unfold foldShape
    refine ⟨?_, ?_, ?_, ?_⟩
    · intro hx
      exact absurd hx hne
    · exact hhead
    · exact hchain
    · intro lz hz
      rw [hlast] at hz
      have hz2 := eq_of_mem_some hz
      omega

theorem foldLoopA (x : List DiffLine) (k : Nat) (hk : 1 ≤ k) :
    ∀ (rest : List Nat) (t : Nat) (acc : List DiffLine),
      t < x.length → lineInteresting x t = true →
      (∀ i ∈ rest, t < i ∧ i < x.length ∧ lineInteresting x i = true) →
      rest.Pairwise (· < ·) →
      (∀ i, t < i → i < x.length → lineInteresting x i = true → i ∈ rest) →
      foldInv x k t acc →
      foldShape k (foldLoop x k rest (t + k + 1) acc) := by
  intro rest
  induction rest with
  | nil =>
    intro t acc ht hpt _ _ hcomp hinv
    apply foldBase_shape x k t acc hk ht hpt _ hinv
    intro i h1 h2
    cases hb : lineInteresting x i
    · rfl
    · exact absurd (hcomp i h1 h2 hb) (List.not_mem_nil i)
  | cons idx rest' ih =>
    intro t acc ht hpt hmem hpw hcomp hinv
    obtain ⟨hidx1, hidx2, hidx3⟩ := hmem idx (List.mem_cons_self idx rest')
    rw [foldLoop_cons2]
    apply ih idx (foldStepAcc x k idx (t + k + 1) acc) hidx2 hidx3
    · intro i hi
      exact ⟨(List.pairwise_cons.mp hpw).1 i hi,
        (hmem i (List.mem_cons_of_mem idx hi)).2⟩
    · exact (List.pairwise_cons.mp hpw).2
    · intro i h1 h2 h3
      rcases List.mem_cons.mp (hcomp i (by omega) h2 h3) with h4 | h4
      · omega
      · exact h4
    · apply foldStep_inv x k hk t idx acc ht hpt hidx1 hidx2 hidx3 _ hinv
      intro i h1 h2
      cases hb : lineInteresting x i
      · rfl
      · rcases List.mem_cons.mp (hcomp i h1 (by omega) hb) with h4 | h4
        · omega
        · have h5 := (List.pairwise_cons.mp hpw).1 i h4
          omega

theorem fold_shape (x : List DiffLine) (k : Nat) (hk : 1 ≤ k) :
    foldShape k (fold x k) := by
  unfold fold
  cases hI : interestingIndices x with
  | nil =>
    have hallp : ∀ i, i < x.length → lineInteresting x i = false := by
      intro i hi
      cases hb : lineInteresting x i
      · rfl
      · have hm := (mem_interestingIndices x i).mpr ⟨hi, hb⟩
        rw [hI] at hm
        exact absurd hm (List.not_mem_nil i)
    rw [if_pos rfl]
    rcases Nat.lt_or_ge (k * 2) x.length with h | h
    · rw [if_pos h, if_neg (by omega)]
      have hi1 : interestingIndices (x.take k) = [] := by
        rw [show x.take k = (x.drop 0).take k by rw [List.drop_zero],
          interestingIndices_slice x 0 k (by omega)]
        exact filter_range_nil _ _ (fun m hm => hallp (0 + m) (by omega))
      have hi2 : interestingIndices (x.drop (x.length - k)) = [] := by
        rw [show x.drop (x.length - k)
            = (x.drop (x.length - k)).take (x.length - (x.length - k)) from
            (List.take_of_length_le (by rw [List.length_drop])).symm,
          interestingIndices_slice x (x.length - k) (x.length - (x.length - k))
            (by omega)]
        exact filter_range_nil _ _ (fun m hm => hallp _ (by omega))
      have hz : interestingIndices (x.take k ++ hunkLine :: x.drop (x.length - k))
          = [k] := by
        rw [show (hunkLine :: x.drop (x.length - k))
            = [hunkLine] ++ x.drop (x.length - k) from rfl,
          interestingIndices_append, interestingIndices_append,
          interestingIndices_hunk, hi1, hi2]
        simp [List.length_take]
        omega
      have hlenz : (x.take k ++ hunkLine :: x.drop (x.length - k)).length
          = 2 * k + 1 := by
        simp only [List.length_append, List.length_cons, List.length_take,
          List.length_drop]
        omega
      unfold foldShape
      rw [hz, hlenz]
      refine ⟨?_, ?_, ?_, ?_⟩
      · intro hx
        exact absurd hx (by simp)
      · intro h0 hh0
        have h1 := eq_of_mem_some hh0
        omega
      · exact List.chain'_singleton _
      · intro lz hz2
        have h1 : lz = k := eq_of_mem_some hz2
        omega
    · rw [if_neg (by omega)]
      unfold foldShape
      rw [hI]
      refine ⟨?_, ?_, ?_, ?_⟩
      · intro _
        omega
      · intro h0 hh0
        exact absurd hh0 (by simp)
      · exact List.chain'_nil
      · intro lz hz2
        exact absurd hz2 (by simp)
  | cons i0 restI =>
    rw [if_neg (by simp)]
    have hpw : (i0 :: restI).Pairwise (· < ·) := by
      rw [← hI]
      exact interestingIndices_pairwise x
    obtain ⟨hi0len, hpi0⟩ : i0 < x.length ∧ lineInteresting x i0 = true := by
      apply (mem_interestingIndices x i0).mp
      rw [hI]
      exact List.mem_cons_self i0 restI
    have hbelow0 : ∀ i < i0, lineInteresting x i = false := by
      intro i hii
      cases hb : lineInteresting x i
      · rfl
      · have h1 : i ∈ i0 :: restI := by
          rw [← hI]
          exact (mem_interestingIndices x i).mpr ⟨by omega, hb⟩
        rcases List.mem_cons.mp h1 with h4 | h4
        · omega
        · have h5 := (List.pairwise_cons.mp hpw).1 i h4
          omega
    rw [foldLoop_cons2]
    have hmax0 : max 0 (i0 - k) = i0 - k := by omega
    have hacc0 : foldStepAcc x k i0 0 []
        = (x.drop (i0 - k)).take (min (i0 + k + 1) x.length - (i0 - k)) := by
      unfold foldStepAcc
      rw [hmax0, if_neg (by simp), List.nil_append]
    have hstop0 : i0 + 1 ≤ min (i0 + k + 1) x.length := by omega
    have hsc : (i0 - k) + (min (i0 + k + 1) x.length - (i0 - k)) ≤ x.length := by
      omega
    have hr1_le : lastInteresting x (min (i0 + k + 1) x.length - 1)
        ≤ min (i0 + k + 1) x.length - 1 := Nat.findGreatest_le _
    have hir1 : i0 ≤ lastInteresting x (min (i0 + k + 1) x.length - 1) :=
      Nat.le_findGreatest (by omega) hpi0
    have hpr1 : lineInteresting x (lastInteresting x (min (i0 + k + 1) x.length - 1))
        = true := lastInteresting_interesting x _ i0 (by omega) hpi0
    have hr1max : ∀ i, lastInteresting x (min (i0 + k + 1) x.length - 1) < i →
        i ≤ min (i0 + k + 1) x.length - 1 → lineInteresting x i = false :=
      fun i h1 h2 => lastInteresting_max x _ i h1 h2
    have hpm0 : lineInteresting x (i0 - k + (i0 - (i0 - k))) = true := by
      have he : i0 - k + (i0 - (i0 - k)) = i0 := by omega
      rw [he]
      exact hpi0
    have hWhead : (((List.range (min (i0 + k + 1) x.length - (i0 - k))).filter
        (fun m => lineInteresting x (i0 - k + m)))).head?
        = some (i0 - (i0 - k)) :=
      filter_range_head (fun m => lineInteresting x (i0 - k + m))
        (i0 - (i0 - k)) hpm0 (fun m hm => hbelow0 _ (by omega))
        (min (i0 + k + 1) x.length - (i0 - k)) (by omega)
    have hWne : (((List.range (min (i0 + k + 1) x.length - (i0 - k))).filter
        (fun m => lineInteresting x (i0 - k + m)))) ≠ [] := by
      intro hq
      rw [hq] at hWhead
      exact Option.noConfusion hWhead
    have hpX1 : lineInteresting x (i0 - k
        + (lastInteresting x (min (i0 + k + 1) x.length - 1) - (i0 - k))) = true := by
      have he : i0 - k + (lastInteresting x (min (i0 + k + 1) x.length - 1) - (i0 - k))
          = lastInteresting x (min (i0 + k + 1) x.length - 1) := by omega
      rw [he]
      exact hpr1
    have hWlast : (((List.range (min (i0 + k + 1) x.length - (i0 - k))).filter
        (fun m => lineInteresting x (i0 - k + m)))).getLast?
        = some (lastInteresting x (min (i0 + k + 1) x.length - 1) - (i0 - k)) :=
      filter_range_getLast (fun m => lineInteresting x (i0 - k + m))
        (lastInteresting x (min (i0 + k + 1) x.length - 1) - (i0 - k)) hpX1
        (min (i0 + k + 1) x.length - (i0 - k)) (by omega)
        (fun m h1 h2 => hr1max _ (by omega) (by omega))
    have hlen0 : (foldStepAcc x k i0 0 []).length
        = min (i0 + k + 1) x.length - (i0 - k) := by
      rw [hacc0]
      simp only [List.length_take, List.length_drop]
      omega
    have hJ0 : interestingIndices (foldStepAcc x k i0 0 [])
        = (List.range (min (i0 + k + 1) x.length - (i0 - k))).filter
            (fun m => lineInteresting x (i0 - k + m)) := by
      rw [hacc0, interestingIndices_slice x (i0 - k)
        (min (i0 + k + 1) x.length - (i0 - k)) hsc]
    apply foldLoopA x k hk restI i0 (foldStepAcc x k i0 0 []) hi0len hpi0
    · intro i hi
      refine ⟨(List.pairwise_cons.mp hpw).1 i hi, ?_⟩
      apply (mem_interestingIndices x i).mp
      rw [hI]
      exact List.mem_cons_of_mem i0 hi
    · exact (List.pairwise_cons.mp hpw).2
    · intro i h1 h2 h3
      have h4 : i ∈ i0 :: restI := by
        rw [← hI]
        exact (mem_interestingIndices x i).mpr ⟨h2, h3⟩
      rcases List.mem_cons.mp h4 with h5 | h5
      · omega
      · exact h5
    · unfold foldInv
      rw [hJ0, hlen0]
      refine ⟨hWne, ?_, ?_, ?_, ?_⟩
      · intro h0 hh0
        rw [hWhead] at hh0
        have h1 := eq_of_mem_some hh0
        omega
      · apply chain'_of_window _ 0 (min (i0 + k + 1) x.length - (i0 - k)) _ _ (by omega)
        intro e he
        have h1 := (mem_filter_range _ _ _).mp he
        omega
      · rw [hWlast, Option.some.injEq]
        omega
      · omega

/-- C4 (amended): context folding is idempotent for every context `k ≥ 1`:
`fold (fold x k) k = fold x k` for every `DiffLine` stream `x`.  (At `k = 0`
idempotence fails: Python `raw[-0:]` is the whole list, so folding an
all-Equal nonempty stream yields `[Hunk] ++ raw`, and folding that again
yields `[Hunk, Hunk]`.)  The proof: the output of `fold` has the folded
shape — interesting indices start within `k`, successive gaps are at most
`2k + 1`, and the stream ends at most `2k + 1` past the last one — and
`fold` is the identity on folded-shaped streams. -/
theorem C4_amended (x : List DiffLine) (k : Nat) (hk : 1 ≤ k) :
    fold (fold x k) k = fold x k := by
  obtain ⟨h1, h2, h3, h4⟩ := fold_shape x k hk
  exact fold_of_P (fold x k) k h1 h2 h3 h4

/-- C4 (amended, witness): the amended statement applied at context 1 to a
three-record all-Equal stream, whose fold elides the middle record. -/
theorem C4_amended_witness :
    1 ≤ 1 ∧ fold (fold [eqRecord 0, eqRecord 1, eqRecord 2] 1) 1
      = fold [eqRecord 0, eqRecord 1, eqRecord 2] 1 :=
  ⟨by decide, C4_amended [eqRecord 0, eqRecord 1, eqRecord 2] 1 (by decide)⟩
